import Mathlib

/-!
Verification development for the quartiles-solver repository.

The Rust source (src/solver.rs, src/dictionary.rs) is shallowly embedded:

* `FragmentPath` models the Rust `FragmentPath([Option<usize>; 4])` as a
  structure with four `Option Nat` slots.
* The unbounded Rust loops (`while used.contains(&start_index)`, the
  increment loop, the pop-and-increment loop) are embedded with explicit
  fuel chosen so that the fuel can never run out on the inputs the Rust
  code reaches; characterisation lemmas relate the fueled functions to
  their mathematical specification.
* The solver's `solve` loop is embedded as a step function `solveIter`
  (one iteration of the Rust `loop`), with the wall-clock check abstracted
  into a boolean oracle consulted once per iteration, and the Rust
  `assert!`/`unreachable!` panics made explicit as a `panics` outcome.
* `Dictionary` is modelled by its word list: `contains` is list
  membership, `contains_prefix` is "some stored word has this prefix",
  matching the `PrefixTreeSet` operations used by the solver.
-/

set_option autoImplicit false

deriving instance DecidableEq for Except

namespace Quartiles

/-- The `FragmentPathError` enumeration of src/solver.rs. -/
inductive FragmentPathError
  /-- The fragment path is already full. -/
  | Overflow
  /-- The fragment path is already empty (at a pop). -/
  | Underflow
  /-- The fragment index cannot be incremented past the ceiling. -/
  | IndexOverflow
  /-- The fragment path is empty, so it cannot be incremented. -/
  | CannotIncrementEmpty
deriving DecidableEq, Repr

/-- The Rust `FragmentPath([Option<usize>; 4])`: four optional fragment
indices. -/
structure FragmentPath where
  s0 : Option Nat
  s1 : Option Nat
  s2 : Option Nat
  s3 : Option Nat
deriving DecidableEq, Repr

namespace FragmentPath

/-- The slots in order, as the Rust `self.0` array. -/
def toList (p : FragmentPath) : List (Option Nat) :=
  [p.s0, p.s1, p.s2, p.s3]

/-- The occupied indices, in slot order: `self.0.iter().flatten()`. -/
def present (p : FragmentPath) : List Nat :=
  p.toList.filterMap id

/-- `is_empty`: the first slot is unset. -/
def isEmptyB (p : FragmentPath) : Bool :=
  p.s0.isNone

/-- `is_full`: the fourth slot is set. -/
def isFullB (p : FragmentPath) : Bool :=
  p.s3.isSome

/-- `self.0.iter().rposition(|&index| index.is_some())`: the position of
the rightmost occupied slot, if any. -/
def rightmostIdx? (p : FragmentPath) : Option Nat :=
  if p.s3.isSome then some 3
  else if p.s2.isSome then some 2
  else if p.s1.isSome then some 1
  else if p.s0.isSome then some 0
  else none

/-- Write slot `i` (0..3); positions past 3 leave the path unchanged
(the Rust code never writes such a position: `(rightmost + 1) as usize`
is at most 3 because `append` has already ruled out a full path). -/
def setSlot (p : FragmentPath) (i : Nat) (v : Option Nat) : FragmentPath :=
  match i with
  | 0 => { p with s0 := v }
  | 1 => { p with s1 := v }
  | 2 => { p with s2 := v }
  | 3 => { p with s3 := v }
  | _ + 4 => p

/-- The empty fragment path, `FragmentPath::default()`. -/
def empty : FragmentPath := ⟨none, none, none, none⟩

/-- Fuel-driven upward scan: the Rust
`while used.contains(&start_index) { start_index += 1 }`.  The fuel
`used.dedup.length + 1` always suffices (pigeonhole), so the 0-fuel arm
is never reached with the fuel `scanUp` supplies. -/
def upGo (used : List Nat) : Nat → Nat → Nat
  | 0, start => start
  | fuel + 1, start =>
    if start ∈ used then upGo used fuel (start + 1) else start

/-- The smallest index at or above `start` not in `used`, computed as the
Rust upward scan. -/
def scanUp (used : List Nat) (start : Nat) : Nat :=
  upGo used (used.dedup.length + 1) start

/-- Downward scan from `stop`: the Rust
`while used.contains(&stop_index) { stop_index -= 1 }`.  In the Rust code
`used` holds at most three indices, so the scan never reaches 0 with
`0 ∈ used`; the value returned in that dead case is irrelevant. -/
def scanDown (used : List Nat) : Nat → Nat
  | 0 => 0
  | n + 1 => if (n + 1) ∈ used then scanDown used n else n + 1

/-- The Rust increment loop, with fuel `stop - cur` (the check
`fragment[rightmost] >= Some(stop_index)` is at the top of each pass, so
the Rust loop runs at most `stop - cur` passes before reporting
overflow). -/
def incGo (used : List Nat) (stop : Nat) : Nat → Nat → Except FragmentPathError Nat
  | 0, _ => .error .IndexOverflow
  | fuel + 1, cur =>
    if stop ≤ cur then .error .IndexOverflow
    else
      let next := cur + 1
      if next ∈ used then incGo used stop fuel next else .ok next

/-- The loop of `FragmentPath::increment`: starting from the current
rightmost value `cur`, repeatedly add one until landing on a value not in
`used`, overflowing when the value is at or beyond `stop`. -/
def incLoop (used : List Nat) (stop cur : Nat) : Except FragmentPathError Nat :=
  incGo used stop (stop - cur) cur

/-- `FragmentPath::append` (src/solver.rs lines 409-437). -/
def append (p : FragmentPath) : Except FragmentPathError FragmentPath :=
  if p.isFullB then .error .Overflow
  else
    let rightmost : Int := match p.rightmostIdx? with
      | some i => (i : Int)
      | none => -1
    let used := p.present
    let startIndex := scanUp used 0
    .ok (p.setSlot (rightmost + 1).toNat (some startIndex))

/-- `FragmentPath::increment` (src/solver.rs lines 453-492). -/
def increment (p : FragmentPath) : Except FragmentPathError FragmentPath :=
  match p.rightmostIdx? with
  | none => .error .CannotIncrementEmpty
  | some r =>
    let used := (p.toList.take r).filterMap id
    let stopIndex := scanDown used 19
    let cur := ((p.toList.getD r none).getD 0)
    match incLoop used stopIndex cur with
    | .ok v => .ok (p.setSlot r (some v))
    | .error e => .error e

/-- `FragmentPath::pop` (src/solver.rs lines 503-518).  The Rust code
checks `is_empty` (first slot unset) and then unwraps `rposition`; when
the first slot is set the rightmost occupied slot exists, so the `none`
arm below is unreachable. -/
def pop (p : FragmentPath) : Except FragmentPathError FragmentPath :=
  if p.isEmptyB then .error .Underflow
  else
    match p.rightmostIdx? with
    | some r => .ok (p.setSlot r none)
    | none => .error .Underflow

/-- The loop of `FragmentPath::pop_and_increment`, with fuel.  Each pass
pops once, so five units of fuel cover any path (at most four occupied
slots); the 0-fuel arm is never reached. -/
def popIncGo : Nat → FragmentPath → Except FragmentPathError FragmentPath
  | 0, _ => .error .Underflow
  | fuel + 1, q =>
    match q.pop with
    | .error e => .error e
    | .ok q' =>
      match q'.increment with
      | .ok r => .ok r
      | .error .IndexOverflow => popIncGo fuel q'
      | .error e => .error e

/-- `FragmentPath::pop_and_increment` (src/solver.rs lines 533-548). -/
def pop_and_increment (p : FragmentPath) : Except FragmentPathError FragmentPath :=
  popIncGo 5 p

/-- The seen-array loop of `FragmentPath::is_disjoint`, over the list of
present indices.  `seen` models the Rust `[bool; 20]`; an index at or
beyond 20 would panic in Rust (`seen[index]` out of bounds), modelled
here as `none`. -/
def disjointGo : List Nat → List Bool → Option Bool
  | [], _ => some true
  | i :: rest, seen =>
    if i < 20 then
      if seen.getD i false then some false
      else disjointGo rest (seen.set i true)
    else none

/-- `FragmentPath::is_disjoint` (src/solver.rs lines 556-568): `some b`
when the Rust function returns `b`, `none` when it would panic (an index
at or beyond 20). -/
def is_disjoint (p : FragmentPath) : Option Bool :=
  disjointGo p.present (List.replicate 20 false)

/-- Convenience predicate: `is_disjoint` returns `true` (no panic). -/
def disjointB (p : FragmentPath) : Bool :=
  p.is_disjoint = some true

/-- `FragmentPath::word` (src/solver.rs lines 581-589): concatenate the
fragments along the path.  An index out of range contributes the empty
string; the solver only reaches indices below 20 with 20 fragments
supplied. -/
def word (p : FragmentPath) (fragments : List String) : String :=
  p.present.foldl (fun acc i => acc ++ fragments.getD i "") ""

/-- Number of occupied slots. -/
def occupiedCount (p : FragmentPath) : Nat :=
  p.present.length

end FragmentPath

/-- Sanity checks against the Rust unit test `test_append`. -/
example :
    (FragmentPath.empty.append = .ok ⟨some 0, none, none, none⟩) ∧
    ((FragmentPath.mk (some 0) none none none).append
      = .ok ⟨some 0, some 1, none, none⟩) ∧
    ((FragmentPath.mk (some 0) (some 1) (some 2) none).append
      = .ok ⟨some 0, some 1, some 2, some 3⟩) ∧
    ((FragmentPath.mk (some 0) (some 1) (some 2) (some 3)).append
      = .error .Overflow) := by decide

/-- Sanity checks against the Rust unit test `test_increment`. -/
example :
    (FragmentPath.empty.increment = .error .CannotIncrementEmpty) ∧
    ((FragmentPath.mk (some 0) none none none).increment
      = .ok ⟨some 1, none, none, none⟩) ∧
    ((FragmentPath.mk (some 19) none none none).increment
      = .error .IndexOverflow) ∧
    ((FragmentPath.mk (some 19) (some 18) none none).increment
      = .error .IndexOverflow) ∧
    ((FragmentPath.mk (some 1) (some 19) (some 3) (some 0)).increment
      = .ok ⟨some 1, some 19, some 3, some 2⟩) ∧
    ((FragmentPath.mk (some 1) (some 19) (some 3) (some 18)).increment
      = .error .IndexOverflow) := by decide

/-- Sanity checks against the Rust unit test `test_pop`. -/
example :
    (FragmentPath.empty.pop = .error .Underflow) ∧
    ((FragmentPath.mk (some 0) (some 1) (some 2) (some 3)).pop
      = .ok ⟨some 0, some 1, some 2, none⟩) ∧
    ((FragmentPath.mk (some 0) none none none).pop
      = .ok ⟨none, none, none, none⟩) := by decide

/-- Sanity checks against the Rust unit test `test_pop_and_increment`. -/
example :
    (FragmentPath.empty.pop_and_increment = .error .Underflow) ∧
    ((FragmentPath.mk (some 0) (some 1) (some 2) (some 3)).pop_and_increment
      = .ok ⟨some 0, some 1, some 3, none⟩) ∧
    ((FragmentPath.mk (some 0) (some 1) (some 3) none).pop_and_increment
      = .ok ⟨some 0, some 2, none, none⟩) ∧
    ((FragmentPath.mk (some 1) none none none).pop_and_increment
      = .error .CannotIncrementEmpty) ∧
    ((FragmentPath.mk (some 19) (some 18) (some 17) (some 16)).pop_and_increment
      = .error .CannotIncrementEmpty) ∧
    ((FragmentPath.mk (some 18) (some 17) (some 16) (some 15)).pop_and_increment
      = .ok ⟨some 18, some 17, some 19, none⟩) := by decide

/-- Sanity checks against the Rust unit test `test_is_disjoint`. -/
example :
    (FragmentPath.empty.is_disjoint = some true) ∧
    ((FragmentPath.mk (some 3) (some 3) none none).is_disjoint = some false) ∧
    ((FragmentPath.mk (some 1) (some 2) (some 3) (some 4)).is_disjoint
      = some true) ∧
    ((FragmentPath.mk (some 20) none none none).is_disjoint = none) := by decide

namespace FragmentPath

/-! ### Characterisation of the scanning loops -/

/-- With enough fuel (some gap at or above `start` within reach), `upGo`
computes the least index at or above `start` outside `used`. -/
theorem upGo_spec (used : List Nat) :
    ∀ (f s : Nat), (∃ j, j < f ∧ s + j ∉ used) →
      upGo used f s ∉ used ∧ s ≤ upGo used f s ∧
        ∀ m, s ≤ m → m < upGo used f s → m ∈ used := by
  intro f
  induction f with
  | zero => intro s h; rcases h with ⟨j, hj, _⟩; omega
  | succ f ih =>
    intro s h
    by_cases hs : s ∈ used
    · have hrec : upGo used (f + 1) s = upGo used f (s + 1) := by
        simp [upGo, hs]
      rcases h with ⟨j, hj, hout⟩
      have hj0 : j ≠ 0 := by rintro rfl; simp at hout; exact hout hs
      obtain ⟨j', rfl⟩ : ∃ j', j = j' + 1 := ⟨j - 1, by omega⟩
      have ih' := ih (s + 1) ⟨j', by omega, by
        have : s + 1 + j' = s + (j' + 1) := by omega
        rw [this]; exact hout⟩
      refine ⟨by rw [hrec]; exact ih'.1, by rw [hrec]; omega, ?_⟩
      intro m hm1 hm2
      rw [hrec] at hm2
      rcases Nat.eq_or_lt_of_le hm1 with rfl | hlt
      · exact hs
      · exact ih'.2.2 m hlt hm2
    · have : upGo used (f + 1) s = s := by simp [upGo, hs]
      rw [this]
      exact ⟨hs, le_refl s, fun m hm1 hm2 => absurd (lt_of_le_of_lt hm1 hm2) (lt_irrefl s)⟩

/-- Pigeonhole: within `used.dedup.length + 1` consecutive values, one is
outside `used`. -/
theorem exists_gap (used : List Nat) (s : Nat) :
    ∃ j, j < used.dedup.length + 1 ∧ s + j ∉ used := by
  by_contra h
  push_neg at h
  set d := used.dedup.length with hd
  have hall : ∀ j, j ≤ d → s + j ∈ used := fun j hj => h j (by omega)
  have hsub : ((List.range (d + 1)).map (s + ·)).toFinset ⊆ used.toFinset := by
    intro x hx
    simp only [List.mem_toFinset, List.mem_map, List.mem_range] at hx ⊢
    rcases hx with ⟨j, hj, rfl⟩
    exact hall j (by omega)
  have hnodup : ((List.range (d + 1)).map (s + ·)).Nodup :=
    (List.nodup_range (d + 1)).map (fun a b hab => by omega)
  have hcard1 : ((List.range (d + 1)).map (s + ·)).toFinset.card = d + 1 := by
    rw [List.toFinset_card_of_nodup hnodup]
    simp
  have hcard2 : used.toFinset.card = d := List.card_toFinset used ▸ rfl
  have := Finset.card_le_card hsub
  omega

/-- The value returned by `scanUp` is outside `used`. -/
theorem scanUp_not_mem (used : List Nat) (s : Nat) : scanUp used s ∉ used :=
  (upGo_spec used _ s (exists_gap used s)).1

/-- `scanUp` does not go below its starting point. -/
theorem scanUp_ge (used : List Nat) (s : Nat) : s ≤ scanUp used s :=
  (upGo_spec used _ s (exists_gap used s)).2.1

/-- Everything between the starting point and the value returned by
`scanUp` is in `used`: the scan returns the least unused index. -/
theorem scanUp_min (used : List Nat) (s : Nat) :
    ∀ m, s ≤ m → m < scanUp used s → m ∈ used :=
  (upGo_spec used _ s (exists_gap used s)).2.2

/-- Starting from 0, the scan cannot pass `used.dedup.length`. -/
theorem scanUp_le (used : List Nat) : scanUp used 0 ≤ used.dedup.length := by
  by_contra h
  push_neg at h
  have hsub : (List.range (scanUp used 0)).toFinset ⊆ used.toFinset := by
    intro x hx
    simp only [List.mem_toFinset, List.mem_range] at hx ⊢
    exact scanUp_min used 0 x (Nat.zero_le x) hx
  have hcard1 : (List.range (scanUp used 0)).toFinset.card = scanUp used 0 := by
    rw [List.toFinset_card_of_nodup (List.nodup_range _)]
    simp
  have hcard2 : used.toFinset.card = used.dedup.length := List.card_toFinset used
  have := Finset.card_le_card hsub
  omega

/-- When an unused value at or below `n` exists, `scanDown` returns the
greatest such value. -/
theorem scanDown_spec (used : List Nat) :
    ∀ n, (∃ m, m ≤ n ∧ m ∉ used) →
      scanDown used n ∉ used ∧ scanDown used n ≤ n ∧
        ∀ k, k ≤ n → k ∉ used → k ≤ scanDown used n := by
  intro n
  induction n with
  | zero =>
    intro h
    rcases h with ⟨m, hm, hout⟩
    interval_cases m
    exact ⟨by simpa [scanDown] using hout, le_refl 0, fun k hk _ => hk⟩
  | succ n ih =>
    intro h
    by_cases hn : (n + 1) ∈ used
    · have hrec : scanDown used (n + 1) = scanDown used n := by
        simp [scanDown, hn]
      rcases h with ⟨m, hm, hout⟩
      have hm' : m ≤ n := by
        rcases Nat.eq_or_lt_of_le hm with rfl | h2
        · exact absurd hn hout
        · omega
      have ih' := ih ⟨m, hm', hout⟩
      refine ⟨by rw [hrec]; exact ih'.1, by rw [hrec]; omega, ?_⟩
      intro k hk hkout
      rw [hrec]
      have hk' : k ≤ n := by
        rcases Nat.eq_or_lt_of_le hk with rfl | h2
        · exact absurd hn hkout
        · omega
      exact ih'.2.2 k hk' hkout
    · have hrec : scanDown used (n + 1) = n + 1 := by
        simp [scanDown, hn]
      rw [hrec]
      exact ⟨hn, le_refl _, fun k hk _ => hk⟩

/-- If the current value is at or beyond `stop`, the increment loop
reports an overflow. -/
theorem incLoop_overflow (used : List Nat) (stop cur : Nat) (h : stop ≤ cur) :
    incLoop used stop cur = .error .IndexOverflow := by
  have : stop - cur = 0 := by omega
  rw [incLoop, this]
  rfl

/-- When the current value is below an unused `stop`, the increment loop
returns the least value above the current one outside `used`. -/
theorem incGo_ok (used : List Nat) (stop : Nat) (hstop : stop ∉ used) :
    ∀ (f cur : Nat), cur < stop → f = stop - cur →
      ∃ v, incGo used stop f cur = .ok v ∧ cur < v ∧ v ≤ stop ∧ v ∉ used ∧
        ∀ m, cur < m → m < v → m ∈ used := by
  intro f
  induction f with
  | zero => intro cur h1 h2; omega
  | succ f ih =>
    intro cur h1 h2
    have hnotle : ¬ stop ≤ cur := by omega
    by_cases hnext : (cur + 1) ∈ used
    · have hne : cur + 1 ≠ stop := fun h => hstop (h ▸ hnext)
      have h1' : cur + 1 < stop := by omega
      obtain ⟨v, hv, hv1, hv2, hv3, hv4⟩ := ih (cur + 1) h1' (by omega)
      refine ⟨v, ?_, by omega, hv2, hv3, ?_⟩
      · simp only [incGo, hnotle, if_false]
        simpa [hnext] using hv
      · intro m hm1 hm2
        rcases Nat.eq_or_lt_of_le (Nat.succ_le_of_lt hm1) with h | h
        · exact h ▸ hnext
        · exact hv4 m h hm2
    · refine ⟨cur + 1, ?_, by omega, by omega, hnext, fun m hm1 hm2 => by omega⟩
      simp only [incGo, hnotle, if_false]
      simp [hnext]

/-- `incLoop` five-way specification in the success case. -/
theorem incLoop_ok (used : List Nat) (stop cur : Nat) (hstop : stop ∉ used)
    (h : cur < stop) :
    ∃ v, incLoop used stop cur = .ok v ∧ cur < v ∧ v ≤ stop ∧ v ∉ used ∧
      ∀ m, cur < m → m < v → m ∈ used :=
  incGo_ok used stop hstop (stop - cur) cur h rfl

/-! ### Slot bookkeeping lemmas -/

/-- Reading a slot other than the one written is unchanged. -/
theorem setSlot_getD_ne (p : FragmentPath) (i j : Nat) (v : Option Nat)
    (h : j ≠ i) : (p.setSlot i v).toList.getD j none = p.toList.getD j none := by
  match i, j with
  | 0, 0 | 1, 1 | 2, 2 | 3, 3 => omega
  | 0, 1 | 0, 2 | 0, 3 | 1, 0 | 1, 2 | 1, 3 | 2, 0 | 2, 1 | 2, 3
  | 3, 0 | 3, 1 | 3, 2 => rfl
  | 0, j + 4 | 1, j + 4 | 2, j + 4 | 3, j + 4 => rfl
  | i + 4, j => rfl

/-- Reading back the slot just written. -/
theorem setSlot_getD_self (p : FragmentPath) (i : Nat) (v : Option Nat)
    (h : i < 4) : (p.setSlot i v).toList.getD i none = v := by
  match i with
  | 0 | 1 | 2 | 3 => rfl
  | i + 4 => omega

/-- The slot the Rust `append` writes: one past the rightmost occupied
slot (`(rightmost + 1) as usize`, with `rightmost == -1` for an empty
path). -/
def appendSlot (p : FragmentPath) : Nat :=
  match p.rightmostIdx? with
  | some i => i + 1
  | none => 0

/-- The position of the rightmost occupied slot (0 for an empty path;
only consulted when some slot is occupied). -/
def rIdx (p : FragmentPath) : Nat :=
  (p.rightmostIdx?).getD 0

/-- The indices used by the slots before the rightmost one: the Rust
`self.0.iter().take(rightmost).flatten()` of `increment`. -/
def others (p : FragmentPath) : List Nat :=
  (p.toList.take p.rIdx).filterMap id

/-- The value held by the rightmost occupied slot. -/
def rVal (p : FragmentPath) : Nat :=
  (p.toList.getD p.rIdx none).getD 0

/-- The stop index of `increment`: the downward scan from 19 skipping
indices used by the other slots. -/
def ceilOf (p : FragmentPath) : Nat :=
  scanDown p.others 19

/-- A path has no occupied slot exactly when `present` is empty. -/
theorem present_nil_iff (p : FragmentPath) :
    p.present = [] ↔ p.rightmostIdx? = none := by
  rcases p with ⟨s0, s1, s2, s3⟩
  cases s0 <;> cases s1 <;> cases s2 <;> cases s3 <;>
    simp [present, toList, rightmostIdx?]

/-- The rightmost occupied position is below 4. -/
theorem rIdx_le (p : FragmentPath) : p.rIdx ≤ 3 := by
  rcases p with ⟨s0, s1, s2, s3⟩
  cases s0 <;> cases s1 <;> cases s2 <;> cases s3 <;>
    simp [rIdx, rightmostIdx?]

/-- Splitting the occupied indices at the rightmost occupied slot. -/
theorem present_decomp (p : FragmentPath) (h : p.rightmostIdx?.isSome) :
    p.present = p.others ++ [p.rVal] := by
  rcases p with ⟨s0, s1, s2, s3⟩
  cases s0 <;> cases s1 <;> cases s2 <;> cases s3 <;>
    simp_all [present, toList, rightmostIdx?, others, rVal, rIdx]

/-- The other slots' indices are at most three. -/
theorem others_length_le (p : FragmentPath) : p.others.length ≤ 3 := by
  calc p.others.length ≤ (p.toList.take p.rIdx).length :=
        (p.toList.take p.rIdx).length_filterMap_le id
    _ ≤ p.rIdx := by simp [List.length_take]
    _ ≤ 3 := p.rIdx_le

/-- Reading a position other than the one just set. -/
theorem boolGetD_set_ne (seen : List Bool) (i x : Nat) (v : Bool) (h : x ≠ i) :
    (seen.set i v).getD x false = seen.getD x false := by
  simp [List.getD, List.getElem?_set_ne (Ne.symm h)]

/-- Reading back the position just set. -/
theorem boolGetD_set_self (seen : List Bool) (i : Nat) (v : Bool)
    (h : i < seen.length) : (seen.set i v).getD i false = v := by
  simp [List.getD, List.getElem?_set_self h]

/-- Reading any position of a constant array. -/
theorem boolGetD_replicate (x n : Nat) (b : Bool) :
    (List.replicate n b).getD x b = b := by
  simp [List.getD]

/-- The seen-array loop of `is_disjoint` answers `true` exactly for a
duplicate-free list of indices below 20 that are all unseen. -/
theorem disjointGo_spec :
    ∀ (li : List Nat) (seen : List Bool), seen.length = 20 →
      (disjointGo li seen = some true ↔
        li.Nodup ∧ (∀ x ∈ li, x < 20) ∧ ∀ x ∈ li, seen.getD x false = false) := by
  intro li
  induction li with
  | nil => intro seen _; simp [disjointGo]
  | cons i rest ih =>
    intro seen hlen
    simp only [disjointGo]
    by_cases hi : i < 20
    · rw [if_pos hi]
      cases hseen : seen.getD i false with
      | true =>
        rw [if_pos rfl]
        constructor
        · intro h; exact absurd h (by simp)
        · rintro ⟨_, _, hall⟩
          have := hall i (List.mem_cons_self i rest)
          rw [this] at hseen
          exact absurd hseen (by simp)
      | false =>
        rw [if_neg (by simp)]
        rw [ih (seen.set i true) (by simp [hlen])]
        constructor
        · rintro ⟨hnd, hlt, hunseen⟩
          have hnotmem : i ∉ rest := by
            intro hmem
            have := hunseen i hmem
            rw [boolGetD_set_self seen i true (by omega)] at this
            exact absurd this (by simp)
          refine ⟨List.nodup_cons.mpr ⟨hnotmem, hnd⟩, ?_, ?_⟩
          · intro x hx
            rcases List.mem_cons.mp hx with rfl | hx
            · exact hi
            · exact hlt x hx
          · intro x hx
            rcases List.mem_cons.mp hx with rfl | hx
            · exact hseen
            · have hne : x ≠ i := fun he => hnotmem (he ▸ hx)
              have := hunseen x hx
              rwa [boolGetD_set_ne seen i x true hne] at this
        · rintro ⟨hnd, hlt, hunseen⟩
          have hnotmem : i ∉ rest := (List.nodup_cons.mp hnd).1
          refine ⟨(List.nodup_cons.mp hnd).2,
            fun x hx => hlt x (List.mem_cons_of_mem i hx), ?_⟩
          intro x hx
          have hne : x ≠ i := fun he => hnotmem (he ▸ hx)
          rw [boolGetD_set_ne seen i x true hne]
          exact hunseen x (List.mem_cons_of_mem i hx)
    · rw [if_neg hi]
      constructor
      · intro h; exact absurd h (by simp)
      · rintro ⟨_, hlt, _⟩
        exact absurd (hlt i (List.mem_cons_self i rest)) hi

/-- `is_disjoint` answers `some true` exactly when the occupied indices
are pairwise distinct and all below 20. -/
theorem disjointB_iff (p : FragmentPath) :
    p.disjointB = true ↔ p.present.Nodup ∧ ∀ x ∈ p.present, x < 20 := by
  have h := disjointGo_spec p.present (List.replicate 20 false) (by simp)
  rw [disjointB, decide_eq_true_iff, is_disjoint, h]
  constructor
  · rintro ⟨h1, h2, _⟩; exact ⟨h1, h2⟩
  · rintro ⟨h1, h2⟩
    exact ⟨h1, h2, fun x _ => boolGetD_replicate x 20 false⟩

/-! ### Unfolding lemmas for append, increment and pop -/

/-- On a non-full path the slot `append` writes is currently unoccupied
(it sits just past the rightmost occupied slot). -/
theorem getD_appendSlot_none (p : FragmentPath) (h : p.isFullB = false) :
    p.toList.getD p.appendSlot none = none := by
  rcases p with ⟨s0, s1, s2, s3⟩
  cases s0 <;> cases s1 <;> cases s2 <;> cases s3 <;>
    simp_all [appendSlot, rightmostIdx?, toList, isFullB]

/-- Setting an unoccupied slot to an index grows the occupied count by
one. -/
theorem occupiedCount_setSlot_some (p : FragmentPath) (i : Nat) (v : Nat)
    (h4 : i < 4) (h : p.toList.getD i none = none) :
    (p.setSlot i (some v)).occupiedCount = p.occupiedCount + 1 := by
  rcases p with ⟨s0, s1, s2, s3⟩
  match i with
  | 0 =>
    simp only [toList, List.getD] at h
    simp at h
    subst h
    cases s1 <;> cases s2 <;> cases s3 <;>
      simp [occupiedCount, present, toList, setSlot]
  | 1 =>
    simp only [toList, List.getD] at h
    simp at h
    subst h
    cases s0 <;> cases s2 <;> cases s3 <;>
      simp [occupiedCount, present, toList, setSlot]
  | 2 =>
    simp only [toList, List.getD] at h
    simp at h
    subst h
    cases s0 <;> cases s1 <;> cases s3 <;>
      simp [occupiedCount, present, toList, setSlot]
  | 3 =>
    simp only [toList, List.getD] at h
    simp at h
    subst h
    cases s0 <;> cases s1 <;> cases s2 <;>
      simp [occupiedCount, present, toList, setSlot]
  | i + 4 => omega

/-- `append` on a non-full path: the computed slot and value. -/
theorem append_eq_ok (p : FragmentPath) (h : p.isFullB = false) :
    p.append = .ok (p.setSlot p.appendSlot (some (scanUp p.present 0))) := by
  rw [append, if_neg (by simp [h])]
  cases hr : p.rightmostIdx? with
  | none => simp [appendSlot, hr]
  | some i =>
    have hi : ((i : Int) + 1).toNat = i + 1 := by omega
    simp [appendSlot, hr, hi]

/-- `increment` on a path with a rightmost occupied slot, in terms of the
increment loop. -/
theorem increment_eq (p : FragmentPath) (r : Nat)
    (hr : p.rightmostIdx? = some r) :
    p.increment = match incLoop p.others p.ceilOf p.rVal with
      | .ok v => .ok (p.setSlot r (some v))
      | .error e => .error e := by
  simp only [increment, hr, others, ceilOf, rVal, rIdx, Option.getD_some]

/-- The increment loop only reports `IndexOverflow` errors. -/
theorem incGo_error (used : List Nat) (stop : Nat) :
    ∀ (f cur : Nat) (e : FragmentPathError),
      incGo used stop f cur = .error e → e = .IndexOverflow := by
  intro f
  induction f with
  | zero =>
    intro cur e h
    simp only [incGo] at h
    exact (Except.error.injEq _ _).mp h |>.symm
  | succ f ih =>
    intro cur e h
    simp only [incGo] at h
    by_cases hle : stop ≤ cur
    · rw [if_pos hle] at h
      exact (Except.error.injEq _ _).mp h |>.symm
    · rw [if_neg hle] at h
      by_cases hmem : (cur + 1) ∈ used
      · rw [if_pos hmem] at h
        exact ih (cur + 1) e h
      · rw [if_neg hmem] at h
        exact absurd h (by simp)

/-- `increment` reports `CannotIncrementEmpty` exactly on a fully
unoccupied path. -/
theorem increment_CIE_iff (p : FragmentPath) :
    p.increment = .error .CannotIncrementEmpty ↔ p.rightmostIdx? = none := by
  constructor
  · intro h
    cases hr : p.rightmostIdx? with
    | none => rfl
    | some r =>
      rw [increment_eq p r hr] at h
      cases hloop : incLoop p.others p.ceilOf p.rVal with
      | ok v => rw [hloop] at h; exact absurd h (by simp)
      | error e =>
        rw [hloop] at h
        have he := incGo_error p.others p.ceilOf _ _ e hloop
        have : e = FragmentPathError.CannotIncrementEmpty :=
          ((Except.error.injEq _ _).mp h).symm ▸ rfl
        rw [he] at this
        exact absurd this (by simp)
  · intro h
    simp [increment, h]

/-- `increment` never reports `Overflow` or `Underflow`. -/
theorem increment_error_cases (p : FragmentPath) (e : FragmentPathError)
    (h : p.increment = .error e) :
    e = .IndexOverflow ∨ e = .CannotIncrementEmpty := by
  cases hr : p.rightmostIdx? with
  | none =>
    right
    simp [increment, hr] at h
    exact h.symm
  | some r =>
    rw [increment_eq p r hr] at h
    cases hloop : incLoop p.others p.ceilOf p.rVal with
    | ok v => rw [hloop] at h; exact absurd h (by simp)
    | error e' =>
      rw [hloop] at h
      left
      have := incGo_error p.others p.ceilOf _ _ e' hloop
      have he : e = e' := ((Except.error.injEq _ _).mp h).symm
      rw [he, this]

/-- Clearing the rightmost occupied slot leaves exactly the other
indices. -/
theorem setSlot_rightmost_present (p : FragmentPath)
    (h : p.rightmostIdx?.isSome) :
    (p.setSlot p.rIdx none).present = p.others := by
  rcases p with ⟨s0, s1, s2, s3⟩
  cases s0 <;> cases s1 <;> cases s2 <;> cases s3 <;>
    simp_all [present, toList, rightmostIdx?, others, rIdx, setSlot]

/-- What a successful `pop` produces. -/
theorem pop_ok (p q : FragmentPath) (h : p.pop = .ok q) :
    p.isEmptyB = false ∧ q = p.setSlot p.rIdx none ∧
      q.present = p.others ∧ p.present = q.present ++ [p.rVal] := by
  by_cases he : p.isEmptyB
  · rw [pop, if_pos he] at h
    exact absurd h (by simp)
  · have he' : p.isEmptyB = false := by simpa using he
    rw [pop, if_neg he] at h
    cases hr : p.rightmostIdx? with
    | none =>
      rw [hr] at h
      exact absurd h (by simp)
    | some r =>
      rw [hr] at h
      have hq : q = p.setSlot r none := ((Except.ok.injEq _ _).mp h).symm
      have hrid : p.rIdx = r := by simp [rIdx, hr]
      have hq' : q = p.setSlot p.rIdx none := by rw [hrid]; exact hq
      have hpres : q.present = p.others :=
        hq' ▸ setSlot_rightmost_present p (by simp [hr])
      refine ⟨he', hq', hpres, ?_⟩
      rw [hpres]
      exact present_decomp p (by simp [hr])

/-- A successful `pop` removes exactly one occupied slot. -/
theorem pop_occupiedCount (p q : FragmentPath) (h : p.pop = .ok q) :
    p.occupiedCount = q.occupiedCount + 1 := by
  have := (pop_ok p q h).2.2.2
  simp [occupiedCount, this]

/-- A list of at most three indices leaves something at or below 19
unused. -/
theorem exists_unused (used : List Nat) (h : used.length ≤ 3) :
    ∃ m, m ≤ 19 ∧ m ∉ used := by
  by_contra hc
  push_neg at hc
  have hsub : (List.range 20).toFinset ⊆ used.toFinset := by
    intro x hx
    simp only [List.mem_toFinset, List.mem_range] at hx ⊢
    exact hc x (by omega)
  have h1 : (List.range 20).toFinset.card = 20 := by
    rw [List.toFinset_card_of_nodup (List.nodup_range _)]
    simp
  have h2 := List.toFinset_card_le used
  have := Finset.card_le_card hsub
  omega

/-- Structural facts about the other slots' indices of a disjoint path
with at least one occupied slot. -/
theorem others_facts (p : FragmentPath) (hd : p.disjointB = true)
    (h : p.rightmostIdx?.isSome) :
    p.others.Nodup ∧ (∀ x ∈ p.others, x < 20) ∧ p.rVal ∉ p.others := by
  have hdec := present_decomp p h
  obtain ⟨hnd, hlt⟩ := (disjointB_iff p).mp hd
  rw [hdec] at hnd hlt
  obtain ⟨hnd1, -, hdisj⟩ := List.nodup_append.mp hnd
  refine ⟨hnd1, fun x hx => hlt x (List.mem_append_left _ hx), ?_⟩
  intro hmem
  exact hdisj hmem (List.mem_singleton_self _)

/-- The ceiling of `increment`: the greatest index at or below 19 not
used by the other slots. -/
theorem ceil_facts (p : FragmentPath) :
    p.ceilOf ∉ p.others ∧ p.ceilOf ≤ 19 ∧
      ∀ k, k ≤ 19 → k ∉ p.others → k ≤ p.ceilOf :=
  scanDown_spec p.others 19
    (exists_unused p.others (others_length_le p))

/-- The ceiling as "19 minus the number of higher indices consumed by
other slots", for a disjoint path. -/
theorem ceil_count (p : FragmentPath) (hd : p.disjointB = true)
    (h : p.rightmostIdx?.isSome) :
    p.ceilOf = 19 - ((p.others).filter (fun u => decide (p.ceilOf < u))).length := by
  obtain ⟨hnotmem, hle, hmax⟩ := ceil_facts p
  obtain ⟨hnd, hlt, -⟩ := others_facts p hd h
  have hnodupF : ((p.others).filter (fun u => decide (p.ceilOf < u))).Nodup :=
    hnd.sublist (List.filter_sublist _)
  have hfin : ((p.others).filter (fun u => decide (p.ceilOf < u))).toFinset
      = Finset.Ioc p.ceilOf 19 := by
    ext x
    simp only [List.mem_toFinset, List.mem_filter, Finset.mem_Ioc,
      decide_eq_true_eq]
    constructor
    · rintro ⟨hmem, hgt⟩
      exact ⟨hgt, by have := hlt x hmem; omega⟩
    · rintro ⟨hgt, hxle⟩
      refine ⟨?_, hgt⟩
      by_contra hout
      exact absurd (hmax x hxle hout) (by omega)
  have hlen : ((p.others).filter (fun u => decide (p.ceilOf < u))).length
      = 19 - p.ceilOf := by
    rw [← List.toFinset_card_of_nodup hnodupF, hfin, Nat.card_Ioc]
  omega

/-- Total version of `pop` used to express the pop chain of
`pop_and_increment`: pops when possible, otherwise stays. -/
def popTotal (p : FragmentPath) : FragmentPath :=
  match p.pop with
  | .ok q => q
  | .error _ => p

/-- The slot `append` writes is below 4 on a non-full path. -/
theorem appendSlot_lt (p : FragmentPath) (h : p.isFullB = false) :
    p.appendSlot < 4 := by
  rcases p with ⟨s0, s1, s2, s3⟩
  cases s0 <;> cases s1 <;> cases s2 <;> cases s3 <;>
    simp_all [appendSlot, rightmostIdx?, isFullB]

/-- `pop` only fails with `Underflow`. -/
theorem pop_error (p : FragmentPath) (e : FragmentPathError)
    (h : p.pop = .error e) : e = .Underflow := by
  by_cases hemp : p.isEmptyB
  · rw [pop, if_pos hemp] at h
    exact ((Except.error.injEq _ _).mp h).symm
  · rw [pop, if_neg hemp] at h
    cases hr : p.rightmostIdx? with
    | some r => rw [hr] at h; exact absurd h (by simp)
    | none => rw [hr] at h; exact ((Except.error.injEq _ _).mp h).symm

/-- An empty path (first slot unset) makes the pop-and-increment loop
fail with the pop's `Underflow`. -/
theorem popIncGo_underflow (p : FragmentPath) (h : p.isEmptyB = true)
    (f : Nat) : popIncGo (f + 1) p = .error .Underflow := by
  have hp : p.pop = .error .Underflow := by rw [pop, if_pos (by simp [h])]
  simp only [popIncGo]
  rw [hp]

/-- When the pop-and-increment loop reports `CannotIncrementEmpty`, the
original path was non-empty, the pops exhaust it completely, and every
intermediate popped path's increment overflowed. -/
theorem popIncGo_CIE :
    ∀ (f : Nat) (p : FragmentPath),
      popIncGo f p = .error .CannotIncrementEmpty →
      p.isEmptyB = false ∧ 1 ≤ p.occupiedCount ∧
        (popTotal^[p.occupiedCount] p).present = [] ∧
        ∀ j, 1 ≤ j → j < p.occupiedCount →
          (popTotal^[j] p).increment = .error .IndexOverflow := by
  intro f
  induction f with
  | zero =>
    intro p h
    exact absurd h (by simp [popIncGo])
  | succ f ih =>
    intro p h
    simp only [popIncGo] at h
    cases hpop : p.pop with
    | error e =>
      rw [hpop] at h
      have he : e = FragmentPathError.Underflow := pop_error p e hpop
      rw [he] at h
      exact absurd h (by simp)
    | ok q =>
      rw [hpop] at h
      dsimp only at h
      obtain ⟨hemp, hq', hpres, hdec⟩ := pop_ok p q hpop
      have hcnt := pop_occupiedCount p q hpop
      have hptq : popTotal p = q := by simp [popTotal, hpop]
      cases hinc : q.increment with
      | ok r => rw [hinc] at h; exact absurd h (by simp)
      | error e =>
        rw [hinc] at h
        cases e with
        | IndexOverflow =>
          obtain ⟨hqemp, hq1, hqpres, hqall⟩ := ih q h
          refine ⟨hemp, by omega, ?_, ?_⟩
          · rw [hcnt, Function.iterate_succ_apply, hptq]
            exact hqpres
          · intro j hj1 hj2
            match j, hj1 with
            | 1, _ =>
              rw [Function.iterate_one, hptq]
              exact hinc
            | j + 2, _ =>
              rw [Function.iterate_succ_apply, hptq]
              exact hqall (j + 1) (by omega) (by omega)
        | CannotIncrementEmpty =>
          have hqnil : q.present = [] :=
            (present_nil_iff q).mpr (increment_CIE_iff q |>.mp hinc)
          have hq0 : q.occupiedCount = 0 := by simp [occupiedCount, hqnil]
          have hcnt1 : p.occupiedCount = 1 := by omega
          refine ⟨hemp, by omega, ?_, ?_⟩
          · rw [hcnt1, Function.iterate_one, hptq]
            exact hqnil
          · intro j hj1 hj2
            omega
        | Overflow => exact absurd h (by simp)
        | Underflow => exact absurd h (by simp)

/-- At most four indices are present. -/
theorem present_length_le (p : FragmentPath) : p.present.length ≤ 4 :=
  p.toList.length_filterMap_le id

/-- `append` only fails with `Overflow`. -/
theorem append_error (p : FragmentPath) (e : FragmentPathError)
    (h : p.append = .error e) : e = .Overflow := by
  by_cases hf : p.isFullB
  · rw [append, if_pos hf] at h
    exact ((Except.error.injEq _ _).mp h).symm
  · rw [append_eq_ok p (by simpa using hf)] at h
    exact absurd h (by simp)

/-- Appending writes the new least unused index after the existing
indices. -/
theorem setSlot_appendSlot_present (p : FragmentPath) (c : Nat)
    (h : p.isFullB = false) :
    (p.setSlot p.appendSlot (some c)).present = p.present ++ [c] := by
  rcases p with ⟨s0, s1, s2, s3⟩
  cases s0 <;> cases s1 <;> cases s2 <;> cases s3 <;>
    simp_all [present, toList, rightmostIdx?, appendSlot, setSlot, isFullB]

/-- `append` preserves disjointness. -/
theorem append_disjoint (p q : FragmentPath) (hd : p.disjointB = true)
    (h : p.append = .ok q) : q.disjointB = true := by
  by_cases hf : p.isFullB
  · rw [append, if_pos hf] at h
    exact absurd h (by simp)
  · have hf' : p.isFullB = false := by simpa using hf
    rw [append_eq_ok p hf'] at h
    have hq : q = p.setSlot p.appendSlot (some (scanUp p.present 0)) :=
      ((Except.ok.injEq _ _).mp h).symm
    obtain ⟨hnd, hlt⟩ := (disjointB_iff p).mp hd
    have hc20 : scanUp p.present 0 < 20 := by
      have h1 := scanUp_le p.present
      have h2 := (p.present.dedup_sublist).length_le
      have h3 := present_length_le p
      omega
    rw [hq, disjointB_iff, setSlot_appendSlot_present p _ hf']
    constructor
    · rw [List.nodup_append]
      exact ⟨hnd, List.nodup_singleton _, by
        intro x hx
        simp only [List.mem_singleton]
        intro hx'
        exact absurd (hx' ▸ hx) (scanUp_not_mem p.present 0)⟩
    · intro x hx
      rcases List.mem_append.mp hx with hx | hx
      · exact hlt x hx
      · rw [List.mem_singleton.mp hx]
        exact hc20

/-- Updating the rightmost occupied slot keeps the other indices and
replaces the last. -/
theorem setSlot_rIdx_some_present (p : FragmentPath) (v : Nat)
    (h : p.rightmostIdx?.isSome) :
    (p.setSlot p.rIdx (some v)).present = p.others ++ [v] := by
  rcases p with ⟨s0, s1, s2, s3⟩
  cases s0 <;> cases s1 <;> cases s2 <;> cases s3 <;>
    simp_all [present, toList, rightmostIdx?, others, rIdx, setSlot]

/-- What a successful `increment` produces. -/
theorem increment_ok (p q : FragmentPath) (h : p.increment = .ok q) :
    ∃ r v, p.rightmostIdx? = some r ∧
      incLoop p.others p.ceilOf p.rVal = .ok v ∧
      q = p.setSlot r (some v) := by
  cases hr : p.rightmostIdx? with
  | none =>
    rw [increment, hr] at h
    exact absurd h (by simp)
  | some r =>
    rw [increment_eq p r hr] at h
    cases hloop : incLoop p.others p.ceilOf p.rVal with
    | error e => rw [hloop] at h; exact absurd h (by simp)
    | ok v =>
      rw [hloop] at h
      exact ⟨r, v, rfl, rfl, ((Except.ok.injEq _ _).mp h).symm⟩

/-- Basic facts about a successful increment-loop run, with no side
conditions. -/
theorem incGo_ok_facts (used : List Nat) (stop : Nat) :
    ∀ (f cur v : Nat), incGo used stop f cur = .ok v →
      v ∉ used ∧ v ≤ stop ∧ cur < v := by
  intro f
  induction f with
  | zero => intro cur v h; exact absurd h (by simp [incGo])
  | succ f ih =>
    intro cur v h
    simp only [incGo] at h
    by_cases hle : stop ≤ cur
    · rw [if_pos hle] at h; exact absurd h (by simp)
    · rw [if_neg hle] at h
      by_cases hmem : (cur + 1) ∈ used
      · rw [if_pos hmem] at h
        obtain ⟨h1, h2, h3⟩ := ih (cur + 1) v h
        exact ⟨h1, h2, by omega⟩
      · rw [if_neg hmem] at h
        have : v = cur + 1 := ((Except.ok.injEq _ _).mp h).symm
        exact ⟨this ▸ hmem, by omega, by omega⟩

/-- `increment` preserves disjointness. -/
theorem increment_disjoint (p q : FragmentPath) (hd : p.disjointB = true)
    (h : p.increment = .ok q) : q.disjointB = true := by
  obtain ⟨r, v, hr, hloop, hq⟩ := increment_ok p q h
  obtain ⟨hvnot, hvle, -⟩ := incGo_ok_facts p.others p.ceilOf _ _ _ hloop
  obtain ⟨hnd, hlt, -⟩ := others_facts p hd (by simp [hr])
  have hrid : p.rIdx = r := by simp [rIdx, hr]
  rw [hq, ← hrid, disjointB_iff,
    setSlot_rIdx_some_present p v (by simp [hr])]
  have hceil : p.ceilOf ≤ 19 := (ceil_facts p).2.1
  constructor
  · rw [List.nodup_append]
    exact ⟨hnd, List.nodup_singleton _, by
      intro x hx
      simp only [List.mem_singleton]
      intro hx'
      exact absurd (hx' ▸ hx) hvnot⟩
  · intro x hx
    rcases List.mem_append.mp hx with hx | hx
    · exact hlt x hx
    · rw [List.mem_singleton.mp hx]; omega

/-- `pop` preserves disjointness. -/
theorem pop_disjoint (p q : FragmentPath) (hd : p.disjointB = true)
    (h : p.pop = .ok q) : q.disjointB = true := by
  obtain ⟨-, -, hpres, hdec⟩ := pop_ok p q h
  obtain ⟨hnd, hlt⟩ := (disjointB_iff p).mp hd
  rw [hdec] at hnd hlt
  rw [disjointB_iff]
  obtain ⟨hnd1, -, -⟩ := List.nodup_append.mp hnd
  exact ⟨hnd1, fun x hx => hlt x (List.mem_append_left _ hx)⟩

/-- The pop-and-increment loop preserves disjointness. -/
theorem popIncGo_disjoint :
    ∀ (f : Nat) (p q : FragmentPath), p.disjointB = true →
      popIncGo f p = .ok q → q.disjointB = true := by
  intro f
  induction f with
  | zero => intro p q _ h; exact absurd h (by simp [popIncGo])
  | succ f ih =>
    intro p q hd h
    simp only [popIncGo] at h
    cases hpop : p.pop with
    | error e => rw [hpop] at h; exact absurd h (by simp)
    | ok q' =>
      rw [hpop] at h
      dsimp only at h
      have hd' : q'.disjointB = true := pop_disjoint p q' hd hpop
      cases hinc : q'.increment with
      | ok r =>
        rw [hinc] at h
        have : r = q := (Except.ok.injEq _ _).mp h
        exact this ▸ increment_disjoint q' r hd' hinc
      | error e =>
        rw [hinc] at h
        cases e with
        | IndexOverflow => exact ih q' q hd' h
        | Overflow => exact absurd h (by simp)
        | Underflow => exact absurd h (by simp)
        | CannotIncrementEmpty => exact absurd h (by simp)

/-- `pop_and_increment` preserves disjointness. -/
theorem pop_and_increment_disjoint (p q : FragmentPath)
    (hd : p.disjointB = true) (h : p.pop_and_increment = .ok q) :
    q.disjointB = true :=
  popIncGo_disjoint 5 p q hd h

/-- A successful `append` changes the path. -/
theorem append_ne (p q : FragmentPath) (h : p.append = .ok q) : q ≠ p := by
  by_cases hf : p.isFullB
  · rw [append, if_pos hf] at h
    exact absurd h (by simp)
  · have hf' : p.isFullB = false := by simpa using hf
    rw [append_eq_ok p hf'] at h
    have hq : q = p.setSlot p.appendSlot (some (scanUp p.present 0)) :=
      ((Except.ok.injEq _ _).mp h).symm
    intro he
    have h1 : q.toList.getD p.appendSlot none = some (scanUp p.present 0) :=
      hq ▸ setSlot_getD_self p _ _ (appendSlot_lt p hf')
    rw [he, getD_appendSlot_none p hf'] at h1
    exact absurd h1 (by simp)

/-- The value in the rightmost occupied slot. -/
theorem getD_rIdx_eq (p : FragmentPath) (h : p.rightmostIdx?.isSome) :
    p.toList.getD p.rIdx none = some p.rVal := by
  rcases p with ⟨s0, s1, s2, s3⟩
  cases s0 <;> cases s1 <;> cases s2 <;> cases s3 <;>
    simp_all [toList, rightmostIdx?, rVal, rIdx]

/-- A successful `increment` changes the path. -/
theorem increment_ne (p q : FragmentPath) (h : p.increment = .ok q) :
    q ≠ p := by
  obtain ⟨r, v, hr, hloop, hq⟩ := increment_ok p q h
  obtain ⟨-, -, hgt⟩ := incGo_ok_facts p.others p.ceilOf _ _ _ hloop
  have hrid : p.rIdx = r := by simp [rIdx, hr]
  intro he
  have h1 : q.toList.getD r none = some v :=
    hq ▸ setSlot_getD_self p r _ (by have := rIdx_le p; omega)
  have h2 : p.toList.getD r none = some p.rVal := by
    rw [← hrid]; exact getD_rIdx_eq p (by simp [hr])
  rw [he, h2] at h1
  have : p.rVal = v := (Option.some.injEq _ _).mp h1
  omega

/-- `increment` does not change the occupied count. -/
theorem increment_count (p q : FragmentPath) (h : p.increment = .ok q) :
    q.occupiedCount = p.occupiedCount := by
  obtain ⟨r, v, hr, hloop, hq⟩ := increment_ok p q h
  have hrid : p.rIdx = r := by simp [rIdx, hr]
  have h1 : q.present = p.others ++ [v] := by
    rw [hq, ← hrid]
    exact setSlot_rIdx_some_present p v (by simp [hr])
  have h2 : p.present = p.others ++ [p.rVal] := present_decomp p (by simp [hr])
  simp [occupiedCount, h1, h2]

/-- The pop-and-increment loop strictly shrinks the occupied count. -/
theorem popIncGo_count :
    ∀ (f : Nat) (p q : FragmentPath), popIncGo f p = .ok q →
      q.occupiedCount < p.occupiedCount := by
  intro f
  induction f with
  | zero => intro p q h; exact absurd h (by simp [popIncGo])
  | succ f ih =>
    intro p q h
    simp only [popIncGo] at h
    cases hpop : p.pop with
    | error e => rw [hpop] at h; exact absurd h (by simp)
    | ok q' =>
      rw [hpop] at h
      dsimp only at h
      have hcnt := pop_occupiedCount p q' hpop
      cases hinc : q'.increment with
      | ok r =>
        rw [hinc] at h
        have hrq : r = q := (Except.ok.injEq _ _).mp h
        subst hrq
        have := increment_count q' r hinc
        omega
      | error e =>
        rw [hinc] at h
        cases e with
        | IndexOverflow => have := ih q' q h; omega
        | Overflow => exact absurd h (by simp)
        | Underflow => exact absurd h (by simp)
        | CannotIncrementEmpty => exact absurd h (by simp)

/-- A successful `pop_and_increment` changes the path. -/
theorem pop_and_increment_ne (p q : FragmentPath)
    (h : p.pop_and_increment = .ok q) : q ≠ p := by
  intro he
  have := popIncGo_count 5 p q h
  rw [he] at this
  omega

/-- The pop-and-increment loop only fails with `Underflow` or
`CannotIncrementEmpty`. -/
theorem popIncGo_error_cases :
    ∀ (f : Nat) (p : FragmentPath) (e : FragmentPathError),
      popIncGo f p = .error e →
      e = .Underflow ∨ e = .CannotIncrementEmpty := by
  intro f
  induction f with
  | zero =>
    intro p e h
    simp only [popIncGo] at h
    exact Or.inl ((Except.error.injEq _ _).mp h).symm
  | succ f ih =>
    intro p e h
    simp only [popIncGo] at h
    cases hpop : p.pop with
    | error e' =>
      rw [hpop] at h
      have := pop_error p e' hpop
      left
      rw [← this]
      exact ((Except.error.injEq _ _).mp h).symm
    | ok q' =>
      rw [hpop] at h
      dsimp only at h
      cases hinc : q'.increment with
      | ok r => rw [hinc] at h; exact absurd h (by simp)
      | error e' =>
        rw [hinc] at h
        cases e' with
        | IndexOverflow => exact ih q' e h
        | CannotIncrementEmpty =>
          right
          exact ((Except.error.injEq _ _).mp h).symm
        | Overflow =>
          rcases increment_error_cases q' _ hinc with h' | h' <;>
            exact absurd h' (by simp)
        | Underflow =>
          rcases increment_error_cases q' _ hinc with h' | h' <;>
            exact absurd h' (by simp)

/-- A non-empty path (first slot set) has a rightmost occupied slot. -/
theorem rightmost_isSome_of_not_emptyB (p : FragmentPath)
    (h : p.isEmptyB = false) : p.rightmostIdx?.isSome := by
  rcases p with ⟨s0, s1, s2, s3⟩
  cases s0 <;> cases s1 <;> cases s2 <;> cases s3 <;>
    simp_all [isEmptyB, rightmostIdx?]

/-- `pop` fails only on a path whose first slot is unset. -/
theorem pop_error_emptyB (p : FragmentPath) (e : FragmentPathError)
    (h : p.pop = .error e) : p.isEmptyB = true := by
  by_cases hemp : p.isEmptyB
  · exact hemp
  · exfalso
    rw [pop, if_neg hemp] at h
    cases hr : p.rightmostIdx? with
    | some r => rw [hr] at h; exact absurd h (by simp)
    | none =>
      have := rightmost_isSome_of_not_emptyB p (by simpa using hemp)
      rw [hr] at this
      exact absurd this (by simp)

/-- A rightmost occupied slot at position 0 means all later slots are
unset. -/
theorem rIdx_zero_shape (p : FragmentPath)
    (h : p.rightmostIdx? = some 0) :
    p.s1 = none ∧ p.s2 = none ∧ p.s3 = none := by
  rcases p with ⟨s0, s1, s2, s3⟩
  cases s0 <;> cases s1 <;> cases s2 <;> cases s3 <;>
    simp_all [rightmostIdx?]

/-- Setting a later slot leaves the first slot unchanged. -/
theorem setSlot_s0 (p : FragmentPath) (i : Nat) (v : Option Nat)
    (h : 1 ≤ i) : (p.setSlot i v).s0 = p.s0 := by
  match i with
  | 0 => omega
  | 1 | 2 | 3 => rfl
  | i + 4 => rfl

/-- When the pop-and-increment loop reports `Underflow` (with enough
fuel), the original path's first slot was unset. -/
theorem popIncGo_underflow_emptyB :
    ∀ (f : Nat) (p : FragmentPath), p.occupiedCount < f →
      popIncGo f p = .error .Underflow → p.isEmptyB = true := by
  intro f
  induction f with
  | zero => intro p h _; omega
  | succ f ih =>
    intro p hcnt h
    simp only [popIncGo] at h
    cases hpop : p.pop with
    | error e => rw [hpop] at h; exact pop_error_emptyB p e hpop
    | ok q' =>
      rw [hpop] at h
      dsimp only at h
      exfalso
      cases hinc : q'.increment with
      | ok r => rw [hinc] at h; exact absurd h (by simp)
      | error e =>
        rw [hinc] at h
        cases e with
        | Overflow =>
          rcases increment_error_cases q' _ hinc with h' | h' <;>
            exact absurd h' (by simp)
        | Underflow =>
          rcases increment_error_cases q' _ hinc with h' | h' <;>
            exact absurd h' (by simp)
        | CannotIncrementEmpty => exact absurd h (by simp)
        | IndexOverflow =>
          have hcnt' := pop_occupiedCount p q' hpop
          have hq'emp := ih q' (by omega) h
          -- q' has an occupied slot (its increment overflowed rather
          -- than reporting an empty path), yet its first slot is unset;
          -- show this cannot arise from a successful pop.
          obtain ⟨hemp, hq', -, -⟩ := pop_ok p q' hpop
          by_cases hr0 : p.rIdx = 0
          · have hsome := rightmost_isSome_of_not_emptyB p hemp
            obtain ⟨r, hr⟩ := Option.isSome_iff_exists.mp hsome
            have hreq : r = 0 := by
              have : p.rIdx = r := by simp [FragmentPath.rIdx, hr]
              omega
            obtain ⟨h1, h2, h3⟩ := rIdx_zero_shape p (hreq ▸ hr)
            have hq'empty : q' = FragmentPath.empty := by
              rw [hq', hr0]
              rcases p with ⟨s0, s1, s2, s3⟩
              simp_all [setSlot, empty]
            rw [hq'empty] at hinc
            have : FragmentPath.empty.increment
                = .error .CannotIncrementEmpty := by decide
            rw [this] at hinc
            exact absurd ((Except.error.injEq _ _).mp hinc) (by simp)
          · have : q'.s0 = p.s0 := by
              rw [hq']
              exact setSlot_s0 p p.rIdx none (by omega)
            have hps0 : p.s0.isSome := by
              revert hemp
              simp [isEmptyB, Option.isNone]
              cases p.s0 <;> simp
            rw [isEmptyB, this] at hq'emp
            cases hx : p.s0 with
            | none => rw [hx] at hps0; exact absurd hps0 (by simp)
            | some v => rw [hx] at hq'emp; exact absurd hq'emp (by simp)

/-- The canonical (packed) path holding the given indices: occupied
slots form a prefix.  Lists longer than four indices do not arise. -/
def pack : List Nat → FragmentPath
  | [] => empty
  | [a] => ⟨some a, none, none, none⟩
  | [a, b] => ⟨some a, some b, none, none⟩
  | [a, b, c] => ⟨some a, some b, some c, none⟩
  | [a, b, c, d] => ⟨some a, some b, some c, some d⟩
  | _ => empty

/-- A path is packed when its occupied slots form a prefix: it is the
canonical path of its own indices.  Every path reachable from the empty
path is packed. -/
def packedB (p : FragmentPath) : Bool := pack p.present == p

/-- On packed paths, `is_empty` (first slot unset) coincides with having
no occupied slot at all. -/
theorem packed_emptyB_iff (p : FragmentPath) (h : packedB p = true) :
    p.isEmptyB = true ↔ p.present = [] := by
  have hp : pack p.present = p := by
    have h' := h
    simp only [packedB, beq_iff_eq] at h'
    exact h'
  constructor
  · intro hemp
    cases hpr : p.present with
    | nil => rfl
    | cons a t =>
      exfalso
      rw [hpr] at hp
      have h4 : (a :: t).length ≤ 4 := hpr ▸ present_length_le p
      match t, h4 with
      | [], _ | [b], _ | [b, c], _ | [b, c, d], _ =>
        rw [← hp] at hemp
        simp [pack, isEmptyB] at hemp
  · intro hpr
    rw [hpr] at hp
    rw [← hp]
    rfl

end FragmentPath

/-!
## Claim theorems for the fragment-path primitives
-/

/-- C5: appending to a full path yields `Overflow`; appending to a
disjoint path with fewer than four occupied slots succeeds, writes the
slot immediately after the previous rightmost occupied slot (which was
unoccupied), grows the occupied count by one, leaves every other slot
unchanged, and the new value is the smallest index not already present
in the path. -/
theorem c5_append_spec :
    (∀ p : FragmentPath, p.isFullB = true → p.append = .error .Overflow) ∧
    (∀ p : FragmentPath, p.disjointB = true → p.isFullB = false →
      ∃ c, p.append = .ok (p.setSlot p.appendSlot (some c)) ∧
        p.toList.getD p.appendSlot none = none ∧
        (p.setSlot p.appendSlot (some c)).occupiedCount
          = p.occupiedCount + 1 ∧
        (∀ i, i ≠ p.appendSlot →
          (p.setSlot p.appendSlot (some c)).toList.getD i none
            = p.toList.getD i none) ∧
        c ∉ p.present ∧ ∀ m, m < c → m ∈ p.present) := by
  constructor
  · intro p h
    rw [FragmentPath.append, if_pos (by simp [h])]
  · intro p hd hf
    exact ⟨FragmentPath.scanUp p.present 0,
      FragmentPath.append_eq_ok p hf,
      FragmentPath.getD_appendSlot_none p hf,
      FragmentPath.occupiedCount_setSlot_some p _ _
        (FragmentPath.appendSlot_lt p hf)
        (FragmentPath.getD_appendSlot_none p hf),
      fun i hi => FragmentPath.setSlot_getD_ne p _ i _ hi,
      FragmentPath.scanUp_not_mem p.present 0,
      fun m hm => FragmentPath.scanUp_min p.present 0 m (Nat.zero_le m) hm⟩

/-- C6: incrementing an empty path yields `CannotIncrementEmpty`; on a
non-empty disjoint path the ceiling is the largest index not used by the
other slots — equal to 19 minus the number of higher indices the other
slots consume — `IndexOverflow` is reported exactly when the rightmost
value is at or beyond that ceiling, and otherwise the rightmost slot
advances to the smallest larger value not used by any other slot. -/
theorem c6_increment_spec :
    (∀ p : FragmentPath, p.present = [] →
      p.increment = .error .CannotIncrementEmpty) ∧
    (∀ p : FragmentPath, p.disjointB = true → p.present ≠ [] →
      (p.ceilOf ∉ p.others ∧ p.ceilOf ≤ 19 ∧
        (∀ m, m ≤ 19 → m ∉ p.others → m ≤ p.ceilOf) ∧
        p.ceilOf
          = 19 - (p.others.filter (fun u => decide (p.ceilOf < u))).length) ∧
      (p.increment = .error .IndexOverflow ↔ p.ceilOf ≤ p.rVal) ∧
      (p.rVal < p.ceilOf →
        ∃ v, p.increment = .ok (p.setSlot p.rIdx (some v)) ∧
          p.rVal < v ∧ v ∉ p.others ∧
          ∀ m, p.rVal < m → m < v → m ∈ p.others)) := by
  constructor
  · intro p h
    exact (FragmentPath.increment_CIE_iff p).mpr
      ((FragmentPath.present_nil_iff p).mp h)
  · intro p hd hne
    have hsome : p.rightmostIdx?.isSome := by
      cases hr : p.rightmostIdx? with
      | none => exact absurd ((FragmentPath.present_nil_iff p).mpr hr) hne
      | some r => simp
    obtain ⟨r, hr⟩ := Option.isSome_iff_exists.mp hsome
    have hrid : p.rIdx = r := by simp [FragmentPath.rIdx, hr]
    obtain ⟨hcnot, hcle, hcmax⟩ := FragmentPath.ceil_facts p
    refine ⟨⟨hcnot, hcle, hcmax, FragmentPath.ceil_count p hd hsome⟩, ?_, ?_⟩
    · constructor
      · intro h
        by_contra hlt
        push_neg at hlt
        obtain ⟨v, hv, -⟩ :=
          FragmentPath.incLoop_ok p.others p.ceilOf p.rVal hcnot hlt
        rw [FragmentPath.increment_eq p r hr, hv] at h
        exact absurd h (by simp)
      · intro h
        rw [FragmentPath.increment_eq p r hr,
          FragmentPath.incLoop_overflow _ _ _ h]
    · intro hlt
      obtain ⟨v, hv, h1, h2, h3, h4⟩ :=
        FragmentPath.incLoop_ok p.others p.ceilOf p.rVal hcnot hlt
      refine ⟨v, ?_, h1, h3, h4⟩
      rw [FragmentPath.increment_eq p r hr, hv, hrid]

/-!
## The dictionary and the solver

`Dictionary` is a prefix-tree set of words; the solver only consults
`contains` and `contains_prefix`, so it is modelled by its word list.
-/

/-- `Dictionary::contains`: exact membership. -/
def dictContains (d : List String) (w : String) : Bool :=
  d.contains w

/-- `Dictionary::contains_prefix`: some stored word has the candidate as
a literal prefix (a prefix tree answers `true` for the empty prefix
exactly when it is non-empty). -/
def containsPfx (d : List String) (w : String) : Bool :=
  d.any (fun v => w.data.isPrefixOf v.data)

/-- The `Solver` of src/solver.rs: dictionary, the 20 fragments, the
cursor path, the accumulated solution and the finished flag. -/
structure Solver where
  dictionary : List String
  fragments : List String
  path : FragmentPath
  solution : List FragmentPath
  is_finished : Bool
deriving DecidableEq, Repr

namespace Solver

/-- `Solver::new`. -/
def new (dictionary fragments : List String) : Solver :=
  { dictionary := dictionary, fragments := fragments,
    path := FragmentPath.empty, solution := [], is_finished := false }

/-- `Solver::current_word`: the candidate word of the cursor path. -/
def current_word (s : Solver) : String :=
  s.path.word s.fragments

/-- `Solver::is_solved` (src/solver.rs lines 93-123): finished, at least
five distinct full-word texts, and the set of used fragment indices as
large as the fragment array. -/
def is_solved (s : Solver) : Bool :=
  if !s.is_finished then false
  else
    let fullPaths := s.solution.filter (fun p => p.isFullB)
    let unique := (fullPaths.map (fun p => p.word s.fragments)).dedup
    if unique.length < 5 then false
    else
      let usedIndices := (fullPaths.map (fun p => p.present)).flatten.dedup
      usedIndices.length == s.fragments.length

end Solver

/-- The panics the Rust solve loop can raise (`assert!`,
`assert_ne!`, `unreachable!`, `unwrap`). -/
inductive PanicReason
  /-- `assert!(self.path.is_disjoint())` at the top of `solve` failed. -/
  | entryAssert
  /-- `append` returned an error other than `Overflow`. -/
  | unreachableAppend
  /-- `increment` returned an error other than `IndexOverflow`. -/
  | unreachableIncrement
  /-- `pop_and_increment` returned an error other than
  `CannotIncrementEmpty`. -/
  | unreachablePopInc
  /-- `assert_ne!(self.path, start_path)`: the progress invariant. -/
  | progressAssert
  /-- `self.solution.last().unwrap()` on an empty solution. -/
  | lastUnwrap
deriving DecidableEq, Repr

/-- Outcome of one pass of the Rust solve loop body. -/
inductive IterResult
  /-- Fall through to the time check and the next pass. -/
  | nexts (s : Solver)
  /-- `return` with the given word. -/
  | dones (s : Solver) (w : Option FragmentPath)
  /-- A panic fired. -/
  | panics (r : PanicReason)
deriving DecidableEq, Repr

/-- Record a found word: push the cursor path onto the solution. -/
def sAfterFound (s : Solver) : Solver :=
  if dictContains s.dictionary s.current_word
  then { s with solution := s.solution ++ [s.path] }
  else s

/-- The append stage of the loop body: try to extend the path; a full
path is left unchanged; any other error is the Rust
`Err(_) => unreachable!()`. -/
def appendPhase (s1 : Solver) : Option Solver :=
  match s1.path.append with
  | .ok p => some { s1 with path := p }
  | .error .Overflow => some s1
  | .error _ => none

/-- Outcome of the increment/backtrack stage. -/
inductive Phase2Out
  /-- The cursor advanced. -/
  | adv (s : Solver)
  /-- The search space is exhausted: finished. -/
  | fin (s : Solver)
  /-- An `unreachable!` arm was hit. -/
  | pan (r : PanicReason)
deriving DecidableEq, Repr

/-- The increment/backtrack stage of the loop body, entered when the
append stage left the cursor unchanged. -/
def phase2 (s2 : Solver) : Phase2Out :=
  match s2.path.increment with
  | .ok p => .adv { s2 with path := p }
  | .error .IndexOverflow =>
    match s2.path.pop_and_increment with
    | .ok p => .adv { s2 with path := p }
    | .error .CannotIncrementEmpty => .fin { s2 with is_finished := true }
    | .error _ => .pan .unreachablePopInc
  | .error _ => .pan .unreachableIncrement

/-- The tail of the loop body, after the progress assertion: return the
last found word, or fall through to the time check. -/
def finishIter (s3 : Solver) (found : Bool) : IterResult :=
  if found then
    match s3.solution.getLast? with
    | some wp => .dones s3 (some wp)
    | none => .panics .lastUnwrap
  else .nexts s3

/-- One pass of the Rust solve loop body (src/solver.rs lines 155-275,
without the trailing time check, which `solveGo` performs). -/
def solveIter (s : Solver) : IterResult :=
  match (if containsPfx s.dictionary s.current_word
      then appendPhase (sAfterFound s) else some (sAfterFound s)) with
  | none => .panics .unreachableAppend
  | some s2 =>
    match (if s2.path = s.path then phase2 s2 else .adv s2) with
    | .pan r => .panics r
    | .fin s3 => .dones s3 none
    | .adv s3 =>
      if s3.path = s.path then .panics .progressAssert
      else finishIter s3 (dictContains s.dictionary s.current_word)

/-- Outcome of `Solver::solve`. -/
inductive SolveOut
  /-- Normal return: the continuation solver and any found word. -/
  | out (s : Solver) (w : Option FragmentPath)
  /-- A panic fired. -/
  | panicked (r : PanicReason)
  /-- The iteration fuel ran out (cannot happen with fuel beyond the
  size of the search space). -/
  | fuelOut
deriving DecidableEq, Repr

/-- The solve loop: run passes until a word is found, the space is
exhausted, or the time oracle reports that the quantum elapsed.  The
oracle abstracts the wall-clock check `elapsed >= duration`, consulted
once at the end of each pass. -/
def solveGo (oracle : Nat → Bool) : Nat → Nat → Solver → SolveOut
  | 0, _, _ => .fuelOut
  | fuel + 1, i, s =>
    match solveIter s with
    | .panics r => .panicked r
    | .dones s' w => .out s' w
    | .nexts s' =>
      if oracle i then .out s' none else solveGo oracle fuel (i + 1) s'

/-- `Solver::solve` (src/solver.rs lines 139-276): the entry assertion,
the already-finished early return, then the loop. -/
def solve (oracle : Nat → Bool) (fuel : Nat) (s : Solver) : SolveOut :=
  if !s.path.disjointB then .panicked .entryAssert
  else if s.is_finished then .out s none
  else solveGo oracle fuel 0 s

/-- Outcome of `Solver::solve_fully`. -/
inductive FullOut
  /-- Normal return with the finished solver. -/
  | done (s : Solver)
  /-- A panic fired inside `solve`. -/
  | panicked (r : PanicReason)
  /-- Fuel ran out. -/
  | fuelOut
deriving DecidableEq, Repr

/-- `Solver::solve_fully` (src/solver.rs lines 284-292): call `solve`
with an effectively unbounded duration (the oracle never reports the
quantum elapsed) until finished. -/
def solve_fully (innerFuel : Nat) : Nat → Solver → FullOut
  | 0, _ => .fuelOut
  | fuel + 1, s =>
    if s.is_finished then .done s
    else
      match solve (fun _ => false) innerFuel s with
      | .out s' _ => solve_fully innerFuel fuel s'
      | .panicked r => .panicked r
      | .fuelOut => .fuelOut

/-- Sanity check: the first pass from a fresh solver with a non-empty
dictionary descends to the path `[0]`. -/
example :
    solveIter (Solver.new ["ab"] ["a", "b"])
      = .nexts { Solver.new ["ab"] ["a", "b"] with
          path := ⟨some 0, none, none, none⟩ } := by decide

/-- Sanity check: with an empty dictionary the first pass hits the
`unreachable!` arm of the increment match (the Rust code panics). -/
example :
    solveIter (Solver.new [] ["a", "b"])
      = .panics .unreachableIncrement := by decide

/-! ### Shape of one solve-loop pass -/

open FragmentPath in
/-- A path with no occupied slot is not full. -/
theorem not_full_of_rightmost_none (p : FragmentPath)
    (h : p.rightmostIdx? = none) : p.isFullB = false := by
  rcases p with ⟨s0, s1, s2, s3⟩
  cases s0 <;> cases s1 <;> cases s2 <;> cases s3 <;>
    simp_all [FragmentPath.rightmostIdx?, FragmentPath.isFullB]

open FragmentPath in
theorem sAfterFound_pos (s : Solver)
    (hf : dictContains s.dictionary s.current_word = true) :
    sAfterFound s = { s with solution := s.solution ++ [s.path] } := by
  rw [sAfterFound, if_pos hf]

open FragmentPath in
theorem sAfterFound_neg (s : Solver)
    (hf : dictContains s.dictionary s.current_word = false) :
    sAfterFound s = s := by
  rw [sAfterFound, if_neg (by simp [hf])]

open FragmentPath in
/-- The append stage never hits its `unreachable!` arm and only touches
the path. -/
theorem appendPhase_spec (s1 : Solver) :
    (∃ p, s1.path.append = .ok p ∧
      appendPhase s1 = some { s1 with path := p }) ∨
    (s1.path.append = .error .Overflow ∧ appendPhase s1 = some s1) := by
  cases happ : s1.path.append with
  | ok p => exact Or.inl ⟨p, rfl, by rw [appendPhase, happ]⟩
  | error e =>
    have he := append_error s1.path e happ
    subst he
    exact Or.inr ⟨rfl, by rw [appendPhase, happ]⟩

open FragmentPath in
/-- Complete case analysis of the increment/backtrack stage. -/
theorem phase2_spec (s2 : Solver) :
    (∃ p, s2.path.increment = .ok p ∧
      phase2 s2 = .adv { s2 with path := p }) ∨
    (s2.path.increment = .error .IndexOverflow ∧
      ((∃ p, s2.path.pop_and_increment = .ok p ∧
          phase2 s2 = .adv { s2 with path := p }) ∨
       (s2.path.pop_and_increment = .error .CannotIncrementEmpty ∧
          phase2 s2 = .fin { s2 with is_finished := true }) ∨
       (s2.path.pop_and_increment = .error .Underflow ∧
          s2.path.isEmptyB = true ∧
          phase2 s2 = .pan .unreachablePopInc))) ∨
    (s2.path.increment = .error .CannotIncrementEmpty ∧
      s2.path.present = [] ∧ phase2 s2 = .pan .unreachableIncrement) := by
  cases hinc : s2.path.increment with
  | ok p => exact Or.inl ⟨p, rfl, by rw [phase2, hinc]⟩
  | error e =>
    rcases increment_error_cases s2.path e hinc with he | he <;> subst he
    · refine Or.inr (Or.inl ⟨rfl, ?_⟩)
      cases hpi : s2.path.pop_and_increment with
      | ok p =>
        exact Or.inl ⟨p, rfl, by rw [phase2, hinc, hpi]⟩
      | error e' =>
        rcases popIncGo_error_cases 5 s2.path e' hpi with he' | he' <;> subst he'
        · refine Or.inr (Or.inr ⟨rfl, ?_, by rw [phase2, hinc, hpi]⟩)
          exact popIncGo_underflow_emptyB 5 s2.path
            (by have := present_length_le s2.path
                simp only [FragmentPath.occupiedCount]
                omega) hpi
        · exact Or.inr (Or.inl ⟨rfl, by rw [phase2, hinc, hpi]⟩)
    · refine Or.inr (Or.inr ⟨rfl, ?_, by rw [phase2, hinc]⟩)
      exact (present_nil_iff s2.path).mpr ((increment_CIE_iff s2.path).mp hinc)

open FragmentPath in
/-- Complete case analysis of one pass of the solve loop: it either
panics on an `unreachable!` arm (only possible from an unoccupied or
hole-ridden cursor), advances the cursor by one enumeration step —
returning the found word when the candidate was in the dictionary — or
detects exhaustion and finishes.  The progress assertion and the
`last().unwrap()` never fire. -/
theorem solveIter_spec (s : Solver) :
    (∃ r, solveIter s = .panics r ∧
      ((r = .unreachableIncrement ∧ s.path.present = [] ∧
          containsPfx s.dictionary s.current_word = false) ∨
       (r = .unreachablePopInc ∧
          s.path.increment = .error .IndexOverflow ∧
          s.path.isEmptyB = true))) ∨
    (∃ path' sol',
      (sol' = s.solution ∧
          dictContains s.dictionary s.current_word = false ∨
        sol' = s.solution ++ [s.path] ∧
          dictContains s.dictionary s.current_word = true) ∧
      ((solveIter s = .nexts { s with path := path', solution := sol' } ∧
          dictContains s.dictionary s.current_word = false) ∨
       (solveIter s
            = .dones { s with path := path', solution := sol' }
              (some s.path) ∧
          dictContains s.dictionary s.current_word = true)) ∧
      (s.path.append = .ok path' ∨ s.path.increment = .ok path' ∨
        s.path.pop_and_increment = .ok path') ∧
      path' ≠ s.path) ∨
    (∃ sol',
      solveIter s
        = .dones { s with solution := sol', is_finished := true } none ∧
      (sol' = s.solution ∧
          dictContains s.dictionary s.current_word = false ∨
        sol' = s.solution ++ [s.path] ∧
          dictContains s.dictionary s.current_word = true) ∧
      s.path.pop_and_increment = .error .CannotIncrementEmpty) := by
  by_cases hf : dictContains s.dictionary s.current_word = true
  · have hs1 := sAfterFound_pos s hf
    by_cases hp : containsPfx s.dictionary s.current_word = true
    · rcases appendPhase_spec (sAfterFound s) with ⟨p, happ, heq⟩ | ⟨happ, heq⟩
      · rw [hs1] at happ heq
        have happ' : s.path.append = .ok p := happ
        have hne : p ≠ s.path := append_ne s.path p happ'
        refine Or.inr (Or.inl ⟨p, s.solution ++ [s.path],
          Or.inr ⟨rfl, hf⟩, Or.inr ⟨?_, hf⟩, Or.inl happ', hne⟩)
        simp [solveIter, hp, hs1, heq, hne, finishIter, hf]
      · rw [hs1] at happ heq
        have happ' : s.path.append = .error .Overflow := happ
        rcases phase2_spec { s with solution := s.solution ++ [s.path] }
          with ⟨p, hinc, hph⟩ | ⟨hinc, hrest⟩ | ⟨hinc, hpres, hph⟩
        · have hinc' : s.path.increment = .ok p := hinc
          have hne : p ≠ s.path := increment_ne s.path p hinc'
          refine Or.inr (Or.inl ⟨p, s.solution ++ [s.path],
            Or.inr ⟨rfl, hf⟩, Or.inr ⟨?_, hf⟩, Or.inr (Or.inl hinc'), hne⟩)
          simp [solveIter, hp, hs1, heq, hph, hne, finishIter, hf]
        · rcases hrest with ⟨p, hpi, hph⟩ | ⟨hpi, hph⟩ | ⟨hpi, hemp, hph⟩
          · have hpi' : s.path.pop_and_increment = .ok p := hpi
            have hne : p ≠ s.path := pop_and_increment_ne s.path p hpi'
            refine Or.inr (Or.inl ⟨p, s.solution ++ [s.path],
              Or.inr ⟨rfl, hf⟩, Or.inr ⟨?_, hf⟩,
              Or.inr (Or.inr hpi'), hne⟩)
            simp [solveIter, hp, hs1, heq, hph, hne, finishIter, hf]
          · have hpi' : s.path.pop_and_increment
                = .error .CannotIncrementEmpty := hpi
            refine Or.inr (Or.inr ⟨s.solution ++ [s.path], ?_,
              Or.inr ⟨rfl, hf⟩, hpi'⟩)
            simp [solveIter, hp, hs1, heq, hph]
          · have hinc' : s.path.increment = .error .IndexOverflow := hinc
            have hemp' : s.path.isEmptyB = true := hemp
            refine Or.inl ⟨.unreachablePopInc, ?_,
              Or.inr ⟨rfl, hinc', hemp'⟩⟩
            simp [solveIter, hp, hs1, heq, hph]
        · exfalso
          -- the increment arm reported an empty path, but the append
          -- stage just reported a full one: impossible.
          have hpres' : s.path.present = [] := hpres
          have hful : s.path.isFullB = false :=
            not_full_of_rightmost_none s.path
              ((present_nil_iff s.path).mp hpres')
          rw [append_eq_ok s.path hful] at happ'
          exact absurd happ' (by simp)
    · have hp' : containsPfx s.dictionary s.current_word = false := by
        simpa using hp
      rcases phase2_spec { s with solution := s.solution ++ [s.path] }
        with ⟨p, hinc, hph⟩ | ⟨hinc, hrest⟩ | ⟨hinc, hpres, hph⟩
      · have hinc' : s.path.increment = .ok p := hinc
        have hne : p ≠ s.path := increment_ne s.path p hinc'
        refine Or.inr (Or.inl ⟨p, s.solution ++ [s.path],
          Or.inr ⟨rfl, hf⟩, Or.inr ⟨?_, hf⟩, Or.inr (Or.inl hinc'), hne⟩)
        simp [solveIter, hp', hs1, hph, hne, finishIter, hf]
      · rcases hrest with ⟨p, hpi, hph⟩ | ⟨hpi, hph⟩ | ⟨hpi, hemp, hph⟩
        · have hpi' : s.path.pop_and_increment = .ok p := hpi
          have hne : p ≠ s.path := pop_and_increment_ne s.path p hpi'
          refine Or.inr (Or.inl ⟨p, s.solution ++ [s.path],
            Or.inr ⟨rfl, hf⟩, Or.inr ⟨?_, hf⟩,
            Or.inr (Or.inr hpi'), hne⟩)
          simp [solveIter, hp', hs1, hph, hne, finishIter, hf]
        · have hpi' : s.path.pop_and_increment
              = .error .CannotIncrementEmpty := hpi
          refine Or.inr (Or.inr ⟨s.solution ++ [s.path], ?_,
            Or.inr ⟨rfl, hf⟩, hpi'⟩)
          simp [solveIter, hp', hs1, hph]
        · have hinc' : s.path.increment = .error .IndexOverflow := hinc
          have hemp' : s.path.isEmptyB = true := hemp
          refine Or.inl ⟨.unreachablePopInc, ?_,
            Or.inr ⟨rfl, hinc', hemp'⟩⟩
          simp [solveIter, hp', hs1, hph]
      · have hpres' : s.path.present = [] := hpres
        refine Or.inl ⟨.unreachableIncrement, ?_,
          Or.inl ⟨rfl, hpres', hp'⟩⟩
        simp [solveIter, hp', hs1, hph]
  · have hf' : dictContains s.dictionary s.current_word = false := by
      simpa using hf
    have hs1 := sAfterFound_neg s hf'
    by_cases hp : containsPfx s.dictionary s.current_word = true
    · rcases appendPhase_spec (sAfterFound s) with ⟨p, happ, heq⟩ | ⟨happ, heq⟩
      · rw [hs1] at happ heq
        have happ' : s.path.append = .ok p := happ
        have hne : p ≠ s.path := append_ne s.path p happ'
        refine Or.inr (Or.inl ⟨p, s.solution,
          Or.inl ⟨rfl, hf'⟩, Or.inl ⟨?_, hf'⟩, Or.inl happ', hne⟩)
        simp [solveIter, hp, hs1, heq, hne, finishIter, hf']
      · rw [hs1] at happ heq
        have happ' : s.path.append = .error .Overflow := happ
        rcases phase2_spec s
          with ⟨p, hinc, hph⟩ | ⟨hinc, hrest⟩ | ⟨hinc, hpres, hph⟩
        · have hne : p ≠ s.path := increment_ne s.path p hinc
          refine Or.inr (Or.inl ⟨p, s.solution,
            Or.inl ⟨rfl, hf'⟩, Or.inl ⟨?_, hf'⟩,
            Or.inr (Or.inl hinc), hne⟩)
          simp [solveIter, hp, hs1, heq, hph, hne, finishIter, hf']
        · rcases hrest with ⟨p, hpi, hph⟩ | ⟨hpi, hph⟩ | ⟨hpi, hemp, hph⟩
          · have hne : p ≠ s.path := pop_and_increment_ne s.path p hpi
            refine Or.inr (Or.inl ⟨p, s.solution,
              Or.inl ⟨rfl, hf'⟩, Or.inl ⟨?_, hf'⟩,
              Or.inr (Or.inr hpi), hne⟩)
            simp [solveIter, hp, hs1, heq, hph, hne, finishIter, hf']
          · refine Or.inr (Or.inr ⟨s.solution, ?_,
              Or.inl ⟨rfl, hf'⟩, hpi⟩)
            simp [solveIter, hp, hs1, heq, hph]
          · refine Or.inl ⟨.unreachablePopInc, ?_,
              Or.inr ⟨rfl, hinc, hemp⟩⟩
            simp [solveIter, hp, hs1, heq, hph]
        · exfalso
          have hpres' : s.path.present = [] := hpres
          have hful : s.path.isFullB = false :=
            not_full_of_rightmost_none s.path
              ((present_nil_iff s.path).mp hpres')
          rw [append_eq_ok s.path hful] at happ'
          exact absurd happ' (by simp)
    · have hp' : containsPfx s.dictionary s.current_word = false := by
        simpa using hp
      rcases phase2_spec s
        with ⟨p, hinc, hph⟩ | ⟨hinc, hrest⟩ | ⟨hinc, hpres, hph⟩
      · have hne : p ≠ s.path := increment_ne s.path p hinc
        refine Or.inr (Or.inl ⟨p, s.solution,
          Or.inl ⟨rfl, hf'⟩, Or.inl ⟨?_, hf'⟩,
          Or.inr (Or.inl hinc), hne⟩)
        simp [solveIter, hp', hs1, hph, hne, finishIter, hf']
      · rcases hrest with ⟨p, hpi, hph⟩ | ⟨hpi, hph⟩ | ⟨hpi, hemp, hph⟩
        · have hne : p ≠ s.path := pop_and_increment_ne s.path p hpi
          refine Or.inr (Or.inl ⟨p, s.solution,
            Or.inl ⟨rfl, hf'⟩, Or.inl ⟨?_, hf'⟩,
            Or.inr (Or.inr hpi), hne⟩)
          simp [solveIter, hp', hs1, hph, hne, finishIter, hf']
        · refine Or.inr (Or.inr ⟨s.solution, ?_,
            Or.inl ⟨rfl, hf'⟩, hpi⟩)
          simp [solveIter, hp', hs1, hph]
        · refine Or.inl ⟨.unreachablePopInc, ?_,
            Or.inr ⟨rfl, hinc, hemp⟩⟩
          simp [solveIter, hp', hs1, hph]
      · refine Or.inl ⟨.unreachableIncrement, ?_,
          Or.inl ⟨rfl, hpres, hp'⟩⟩
        simp [solveIter, hp', hs1, hph]

/-- C10: pop-and-increment on an empty path reports the initial pop's
`Underflow`, not `CannotIncrementEmpty`; `CannotIncrementEmpty` arises
only from a non-empty path whose pops run all the way to the empty path
with every intermediate path's increment overflowing. -/
theorem c10_pop_and_increment_spec :
    (∀ p : FragmentPath, p.isEmptyB = true →
      p.pop_and_increment = .error .Underflow) ∧
    (∀ p : FragmentPath,
      p.pop_and_increment = .error .CannotIncrementEmpty →
      p.isEmptyB = false ∧ 1 ≤ p.occupiedCount ∧
        (FragmentPath.popTotal^[p.occupiedCount] p).present = [] ∧
        ∀ j, 1 ≤ j → j < p.occupiedCount →
          (FragmentPath.popTotal^[j] p).increment
            = .error .IndexOverflow) := by
  constructor
  · intro p h
    exact FragmentPath.popIncGo_underflow p h 4
  · intro p h
    exact FragmentPath.popIncGo_CIE 5 p h

/-!
## Claim theorems about the solve loop
-/

/-- C7: the progress assertion (`assert_ne!(self.path, start_path)`)
never fires: no pass of the solve loop, from any solver state, reaches
the `progressAssert` panic — whenever a pass neither returns nor panics
on an `unreachable!` arm, the cursor has strictly changed. -/
theorem c7_progress_assert_never_fires :
    ∀ s : Solver, solveIter s ≠ .panics .progressAssert := by
  intro s
  rcases solveIter_spec s with ⟨r, hiter, hcases⟩ |
    ⟨path', sol', -, hout, -, -⟩ | ⟨sol', hiter, -, -⟩
  · rw [hiter]
    intro h
    have : r = PanicReason.progressAssert := (IterResult.panics.injEq _ _).mp h
    rcases hcases with ⟨hr, -, -⟩ | ⟨hr, -, -⟩ <;> rw [hr] at this <;>
      exact absurd this (by simp)
  · rcases hout with ⟨hiter, -⟩ | ⟨hiter, -⟩ <;> rw [hiter] <;> simp
  · rw [hiter]; simp

/-- A found word rules out the `unreachable!` panics of a pass when the
cursor is packed. -/
theorem no_panic_of_found (s : Solver)
    (hpk : FragmentPath.packedB s.path = true)
    (hf : dictContains s.dictionary s.current_word = true) :
    ∀ r, solveIter s ≠ .panics r := by
  intro r h
  rcases solveIter_spec s with ⟨r', hiter, hcases⟩ |
    ⟨path', sol', -, hout, -, -⟩ | ⟨sol', hiter, -, -⟩
  · rw [hiter] at h
    have hr : r' = r := (IterResult.panics.injEq _ _).mp h
    rcases hcases with ⟨-, hpres, hpfx⟩ | ⟨-, hinc, hemp⟩
    · -- empty cursor: the candidate word is "", which is in the
      -- dictionary, so the dictionary is non-empty and the empty
      -- prefix is present — contradicting the failed prefix test.
      have hw : s.current_word = "" := by
        rw [Solver.current_word, FragmentPath.word, hpres]
        rfl
      rw [hw] at hf
      have hdne : s.dictionary ≠ [] := by
        intro hnil
        rw [dictContains, hnil] at hf
        exact absurd hf (by simp)
      rw [hw] at hpfx
      rw [containsPfx] at hpfx
      cases hd : s.dictionary with
      | nil => exact absurd hd hdne
      | cons a t =>
        rw [hd] at hpfx
        simp [String.data] at hpfx
    · -- a packed cursor with an unset first slot is fully empty, and an
      -- empty cursor's increment cannot report IndexOverflow.
      have hpres : s.path.present = [] :=
        (FragmentPath.packed_emptyB_iff s.path hpk).mp hemp
      have := (FragmentPath.increment_CIE_iff s.path).mpr
        ((FragmentPath.present_nil_iff s.path).mp hpres)
      rw [this] at hinc
      exact absurd ((Except.error.injEq _ _).mp hinc) (by simp)
  · rcases hout with ⟨hiter, -⟩ | ⟨hiter, -⟩ <;> rw [hiter] at h <;>
      exact absurd h (by simp)
  · rw [hiter] at h
    exact absurd h (by simp)

/-- Per-call solution growth of the solve loop is at most one path. -/
theorem solveGo_solution_length (oracle : Nat → Bool) :
    ∀ (fuel i : Nat) (s s' : Solver) (w : Option FragmentPath),
      solveGo oracle fuel i s = .out s' w →
      s'.solution.length ≤ s.solution.length + 1 := by
  intro fuel
  induction fuel with
  | zero => intro i s s' w h; exact absurd h (by simp [solveGo])
  | succ fuel ih =>
    intro i s s' w h
    simp only [solveGo] at h
    rcases solveIter_spec s with ⟨r, hiter, -⟩ |
      ⟨path', sol', hsol, hout, -, -⟩ | ⟨sol', hiter, hsol, -⟩
    · rw [hiter] at h
      exact absurd h (by simp)
    · rcases hout with ⟨hiter, hflag⟩ | ⟨hiter, hflag⟩
      · rcases hsol with ⟨hs, -⟩ | ⟨-, htrue⟩
        · rw [hiter] at h
          dsimp only at h
          by_cases horacle : oracle i = true
          · rw [if_pos horacle] at h
            have := (SolveOut.out.injEq _ _ _ _).mp h
            rw [← this.1]
            simp [hs]
          · rw [if_neg (by simp [horacle])] at h
            have := ih (i + 1) _ s' w h
            simp only [hs] at this
            omega
        · rw [hflag] at htrue
          exact absurd htrue (by simp)
      · rw [hiter] at h
        dsimp only at h
        have := (SolveOut.out.injEq _ _ _ _).mp h
        rw [← this.1]
        rcases hsol with ⟨hs, -⟩ | ⟨hs, -⟩ <;> simp [hs]
    · rw [hiter] at h
      dsimp only at h
      have := (SolveOut.out.injEq _ _ _ _).mp h
      rw [← this.1]
      rcases hsol with ⟨hs, -⟩ | ⟨hs, -⟩ <;> simp [hs]

/-- The twenty single-letter fragments used by concrete states. -/
def abcFragments : List String :=
  ["a", "b", "c", "d", "e", "f", "g", "h", "i", "j",
   "k", "l", "m", "n", "o", "p", "q", "r", "s", "t"]

/-- A solver whose cursor sits on the last path of the enumeration while
its candidate word is in the dictionary. -/
def c8CexSolver : Solver :=
  { dictionary := ["tsrq"], fragments := abcFragments,
    path := ⟨some 19, some 18, some 17, some 16⟩,
    solution := [], is_finished := false }

/-- C8 counterexample: a pass that finds a word can nonetheless return
`none` — when advancing the cursor exhausts the search space in the same
pass, the solver finishes and the discovered word is only visible in the
solution list, contradicting "yielding Some of that discovered path". -/
theorem c8_counterexample :
    dictContains c8CexSolver.dictionary c8CexSolver.current_word = true ∧
    FragmentPath.packedB c8CexSolver.path = true ∧
    solveIter c8CexSolver
      = .dones { c8CexSolver with solution := [c8CexSolver.path], is_finished := true } none := by
  decide

/-- C8 (amended): when a pass of the solve loop finds the current
candidate word in the dictionary, it appends the cursor path to the
solution and returns at once — with that path as the found word, unless
advancing the cursor exhausts the search space in that same pass, in
which case the solver finishes and returns no word; and a `solve` call
never grows the solution by more than one path. -/
theorem c8_found_word_spec :
    (∀ s : Solver, FragmentPath.packedB s.path = true →
      dictContains s.dictionary s.current_word = true →
      (∃ path', solveIter s
          = .dones { s with path := path', solution := s.solution ++ [s.path] } (some s.path)) ∨
      (solveIter s
          = .dones { s with solution := s.solution ++ [s.path], is_finished := true } none ∧
        s.path.pop_and_increment = .error .CannotIncrementEmpty)) ∧
    (∀ (oracle : Nat → Bool) (fuel : Nat) (s s' : Solver)
        (w : Option FragmentPath),
      solve oracle fuel s = .out s' w →
      s'.solution.length ≤ s.solution.length + 1) := by
  constructor
  · intro s hpk hf
    rcases solveIter_spec s with ⟨r, hiter, -⟩ |
      ⟨path', sol', hsol, hout, -, -⟩ | ⟨sol', hiter, hsol, hpi⟩
    · exact absurd hiter (no_panic_of_found s hpk hf r)
    · rcases hout with ⟨-, hflag⟩ | ⟨hiter, -⟩
      · rw [hflag] at hf
        exact absurd hf (by simp)
      · left
        refine ⟨path', ?_⟩
        rcases hsol with ⟨-, hflag⟩ | ⟨hs, -⟩
        · rw [hflag] at hf
          exact absurd hf (by simp)
        · rw [hs] at hiter
          exact hiter
    · right
      rcases hsol with ⟨-, hflag⟩ | ⟨hs, -⟩
      · rw [hflag] at hf
        exact absurd hf (by simp)
      · rw [hs] at hiter
        exact ⟨hiter, hpi⟩
  · intro oracle fuel s s' w h
    rw [solve] at h
    by_cases hd : s.path.disjointB = true
    · rw [if_neg (by simp [hd])] at h
      by_cases hfin : s.is_finished = true
      · rw [if_pos hfin] at h
        have := (SolveOut.out.injEq _ _ _ _).mp h
        rw [← this.1]
        omega
      · rw [if_neg hfin] at h
        exact solveGo_solution_length oracle fuel 0 s s' w h
    · rw [if_pos (by simp [Bool.not_eq_true] at hd; simp [hd])] at h
      exact absurd h (by simp)

/-- C4: every path produced by `append`, `increment`, `pop` or
`pop_and_increment` from a disjoint path is disjoint, and one pass of
the solve loop from a disjoint cursor keeps the cursor disjoint and
appends only disjoint paths to the solution. -/
theorem c4_disjoint_invariant :
    (∀ p q : FragmentPath, p.disjointB = true → p.append = .ok q →
      q.disjointB = true) ∧
    (∀ p q : FragmentPath, p.disjointB = true → p.increment = .ok q →
      q.disjointB = true) ∧
    (∀ p q : FragmentPath, p.disjointB = true → p.pop = .ok q →
      q.disjointB = true) ∧
    (∀ p q : FragmentPath, p.disjointB = true →
      p.pop_and_increment = .ok q → q.disjointB = true) ∧
    (∀ s : Solver, s.path.disjointB = true →
      (∀ s', solveIter s = .nexts s' →
        s'.path.disjointB = true ∧
        ∀ p ∈ s'.solution, p ∈ s.solution ∨ p.disjointB = true) ∧
      (∀ s' w, solveIter s = .dones s' w →
        s'.path.disjointB = true ∧
        ∀ p ∈ s'.solution, p ∈ s.solution ∨ p.disjointB = true)) := by
  refine ⟨FragmentPath.append_disjoint, FragmentPath.increment_disjoint,
    FragmentPath.pop_disjoint, FragmentPath.pop_and_increment_disjoint, ?_⟩
  intro s hd
  have hsolution : ∀ sol', (sol' = s.solution ∨
      sol' = s.solution ++ [s.path]) →
      ∀ p ∈ sol', p ∈ s.solution ∨ p.disjointB = true := by
    rintro sol' (rfl | rfl) p hp
    · exact Or.inl hp
    · rcases List.mem_append.mp hp with hp | hp
      · exact Or.inl hp
      · rw [List.mem_singleton.mp hp]
        exact Or.inr hd
  have hpath : ∀ path' : FragmentPath,
      (s.path.append = .ok path' ∨ s.path.increment = .ok path' ∨
        s.path.pop_and_increment = .ok path') →
      path'.disjointB = true := by
    rintro path' (h | h | h)
    · exact FragmentPath.append_disjoint s.path path' hd h
    · exact FragmentPath.increment_disjoint s.path path' hd h
    · exact FragmentPath.pop_and_increment_disjoint s.path path' hd h
  rcases solveIter_spec s with ⟨r, hiter, -⟩ |
    ⟨path', sol', hsol, hout, hstep, -⟩ | ⟨sol', hiter, hsol, -⟩
  · constructor
    · intro s' h
      rw [hiter] at h
      exact absurd h (by simp)
    · intro s' w h
      rw [hiter] at h
      exact absurd h (by simp)
  · have hsol' : sol' = s.solution ∨ sol' = s.solution ++ [s.path] := by
      rcases hsol with ⟨hs, -⟩ | ⟨hs, -⟩
      · exact Or.inl hs
      · exact Or.inr hs
    rcases hout with ⟨hiter, -⟩ | ⟨hiter, -⟩
    · constructor
      · intro s' h
        rw [hiter] at h
        have hs' := (IterResult.nexts.injEq _ _).mp h
        rw [← hs']
        exact ⟨hpath path' hstep, hsolution sol' hsol'⟩
      · intro s' w h
        rw [hiter] at h
        exact absurd h (by simp)
    · constructor
      · intro s' h
        rw [hiter] at h
        exact absurd h (by simp)
      · intro s' w h
        rw [hiter] at h
        have hs' := ((IterResult.dones.injEq _ _ _ _).mp h).1
        rw [← hs']
        exact ⟨hpath path' hstep, hsolution sol' hsol'⟩
  · have hsol' : sol' = s.solution ∨ sol' = s.solution ++ [s.path] := by
      rcases hsol with ⟨hs, -⟩ | ⟨hs, -⟩
      · exact Or.inl hs
      · exact Or.inr hs
    constructor
    · intro s' h
      rw [hiter] at h
      exact absurd h (by simp)
    · intro s' w h
      rw [hiter] at h
      have hs' := ((IterResult.dones.injEq _ _ _ _).mp h).1
      rw [← hs']
      exact ⟨hd, hsolution sol' hsol'⟩

/-!
## A strictly increasing measure on the enumeration

Each enumeration step (append, increment, pop-and-increment) strictly
increases the base-21 positional encoding of the occupied indices, which
is bounded by 21^4 = 194481: this bounds the number of solve-loop passes
and proves termination of `solve_fully`.
-/

/-- One digit step of the positional encoding. -/
def encStep (a x : Nat) : Nat := a * 21 + (x + 1)

/-- Base-21 positional encoding of an index sequence, left-justified
over four digit positions (an empty slot contributes digit 0, an index
`x` contributes digit `x + 1`). -/
def encodeL (l : List Nat) : Nat :=
  (l.foldl encStep 0) * 21 ^ (4 - l.length)

/-- The encoding of the cursor path. -/
def encodeP (p : FragmentPath) : Nat := encodeL p.present

/-- Digit accumulation is bounded when all digits are below 21. -/
theorem foldl_encStep_bound :
    ∀ (l : List Nat) (a : Nat), (∀ x ∈ l, x < 20) →
      l.foldl encStep a < (a + 1) * 21 ^ l.length := by
  intro l
  induction l with
  | nil => intro a _; simp
  | cons x t ih =>
    intro a hx
    have hx20 : x < 20 := hx x (List.mem_cons_self x t)
    have ht : ∀ z ∈ t, z < 20 := fun z hz => hx z (List.mem_cons_of_mem x hz)
    have h1 : (x :: t).foldl encStep a = t.foldl encStep (a * 21 + (x + 1)) := rfl
    rw [h1]
    calc t.foldl encStep (a * 21 + (x + 1))
        < (a * 21 + (x + 1) + 1) * 21 ^ t.length := ih _ ht
      _ ≤ ((a + 1) * 21) * 21 ^ t.length := by
          apply Nat.mul_le_mul_right
          omega
      _ = (a + 1) * 21 ^ (x :: t).length := by
          rw [List.length_cons, pow_succ]
          ring

/-- The encoding of a valid sequence is below 21^4. -/
theorem encodeL_lt (l : List Nat) (h20 : ∀ x ∈ l, x < 20)
    (h4 : l.length ≤ 4) : encodeL l < 194481 := by
  have h := foldl_encStep_bound l 0 h20
  rw [encodeL]
  have hpow : 21 ^ l.length * 21 ^ (4 - l.length) = 194481 := by
    rw [← pow_add]
    have : l.length + (4 - l.length) = 4 := by omega
    rw [this]
    norm_num
  calc (l.foldl encStep 0) * 21 ^ (4 - l.length)
      < (21 ^ l.length) * 21 ^ (4 - l.length) := by
        apply (Nat.mul_lt_mul_right (Nat.pos_pow_of_pos _ (by norm_num))).mpr
        simpa using h
    _ = 194481 := hpow

/-- Appending a digit strictly increases the encoding. -/
theorem encodeL_append_lt (l : List Nat) (c : Nat) (h : l.length < 4) :
    encodeL l < encodeL (l ++ [c]) := by
  have hfold : (l ++ [c]).foldl encStep 0 = (l.foldl encStep 0) * 21 + (c + 1) := by
    rw [List.foldl_append]
    rfl
  rw [encodeL, encodeL, hfold]
  have hlen : (l ++ [c]).length = l.length + 1 := by simp
  rw [hlen]
  have hk : 4 - l.length = (4 - (l.length + 1)) + 1 := by omega
  rw [hk, pow_succ]
  calc (l.foldl encStep 0) * (21 ^ (4 - (l.length + 1)) * 21)
      = ((l.foldl encStep 0) * 21) * 21 ^ (4 - (l.length + 1)) := by ring
    _ < ((l.foldl encStep 0) * 21 + (c + 1)) * 21 ^ (4 - (l.length + 1)) := by
        apply (Nat.mul_lt_mul_right (Nat.pos_pow_of_pos _ (by norm_num))).mpr
        omega

/-- Increasing the last digit strictly increases the encoding. -/
theorem encodeL_last_lt (m : List Nat) (x y : Nat) (h : x < y) :
    encodeL (m ++ [x]) < encodeL (m ++ [y]) := by
  have hx : (m ++ [x]).foldl encStep 0 = (m.foldl encStep 0) * 21 + (x + 1) := by
    rw [List.foldl_append]; rfl
  have hy : (m ++ [y]).foldl encStep 0 = (m.foldl encStep 0) * 21 + (y + 1) := by
    rw [List.foldl_append]; rfl
  rw [encodeL, encodeL, hx, hy]
  simp only [List.length_append, List.length_singleton]
  apply (Nat.mul_lt_mul_right (Nat.pos_pow_of_pos _ (by norm_num))).mpr
  omega

/-- The backtracking jump: dropping a maximal suffix and increasing the
digit before it strictly increases the encoding. -/
theorem encodeL_jump (m : List Nat) (x : Nat) (s : List Nat) (y : Nat)
    (hxy : x < y) (hs : ∀ z ∈ s, z < 20)
    (hlen : m.length + 1 + s.length ≤ 4) :
    encodeL (m ++ [x] ++ s) < encodeL (m ++ [y]) := by
  have hB : (m ++ [x]).foldl encStep 0 = (m.foldl encStep 0) * 21 + (x + 1) := by
    rw [List.foldl_append]; rfl
  have hfold : (m ++ [x] ++ s).foldl encStep 0
      = s.foldl encStep ((m ++ [x]).foldl encStep 0) := by
    rw [List.foldl_append]
  have hbound := foldl_encStep_bound s ((m ++ [x]).foldl encStep 0) hs
  rw [encodeL, encodeL, hfold]
  have hlen1 : (m ++ [x] ++ s).length = m.length + 1 + s.length := by
    simp
    omega
  have hlen2 : (m ++ [y]).length = m.length + 1 := by simp
  rw [hlen1, hlen2]
  have hexp : s.length + (4 - (m.length + 1 + s.length)) = 4 - (m.length + 1) := by
    omega
  calc (s.foldl encStep ((m ++ [x]).foldl encStep 0))
          * 21 ^ (4 - (m.length + 1 + s.length))
      < (((m ++ [x]).foldl encStep 0) + 1) * 21 ^ s.length
          * 21 ^ (4 - (m.length + 1 + s.length)) := by
        exact (Nat.mul_lt_mul_right (Nat.pos_pow_of_pos _ (by norm_num))).mpr hbound
    _ = (((m ++ [x]).foldl encStep 0) + 1) * 21 ^ (4 - (m.length + 1)) := by
        rw [mul_assoc, ← pow_add, hexp]
    _ ≤ ((m ++ [y]).foldl encStep 0) * 21 ^ (4 - (m.length + 1)) := by
        apply Nat.mul_le_mul_right
        rw [hB, List.foldl_append]
        show (m.foldl encStep 0) * 21 + (x + 1) + 1
          ≤ (m.foldl encStep 0) * 21 + (y + 1)
        omega

open FragmentPath in
/-- A non-full path holds at most three indices. -/
theorem present_len_of_not_full (p : FragmentPath) (h : p.isFullB = false) :
    p.present.length ≤ 3 := by
  rcases p with ⟨s0, s1, s2, s3⟩
  cases s0 <;> cases s1 <;> cases s2 <;> cases s3 <;>
    simp_all [FragmentPath.present, FragmentPath.toList, FragmentPath.isFullB]

open FragmentPath in
/-- The cursor encoding of a disjoint path is below 21^4. -/
theorem encodeP_lt (p : FragmentPath) (hd : p.disjointB = true) :
    encodeP p < 194481 := by
  obtain ⟨-, hlt⟩ := (disjointB_iff p).mp hd
  exact encodeL_lt p.present hlt (present_length_le p)

open FragmentPath in
/-- `append` strictly increases the encoding. -/
theorem append_encode (p q : FragmentPath) (h : p.append = .ok q) :
    encodeP p < encodeP q := by
  by_cases hf : p.isFullB
  · rw [append, if_pos hf] at h; exact absurd h (by simp)
  · have hf' : p.isFullB = false := by simpa using hf
    rw [append_eq_ok p hf'] at h
    have hq : q = p.setSlot p.appendSlot (some (scanUp p.present 0)) :=
      ((Except.ok.injEq _ _).mp h).symm
    rw [encodeP, encodeP, hq, setSlot_appendSlot_present p _ hf']
    exact encodeL_append_lt p.present _
      (by have := present_len_of_not_full p hf'; omega)

open FragmentPath in
/-- `increment` strictly increases the encoding. -/
theorem increment_encode (p q : FragmentPath) (h : p.increment = .ok q) :
    encodeP p < encodeP q := by
  obtain ⟨r, v, hr, hloop, hq⟩ := increment_ok p q h
  obtain ⟨-, -, hgt⟩ := incGo_ok_facts p.others p.ceilOf _ _ _ hloop
  have hrid : p.rIdx = r := by simp [FragmentPath.rIdx, hr]
  have h1 : q.present = p.others ++ [v] := by
    rw [hq, ← hrid]
    exact setSlot_rIdx_some_present p v (by simp [hr])
  have h2 : p.present = p.others ++ [p.rVal] := present_decomp p (by simp [hr])
  rw [encodeP, encodeP, h1, h2]
  exact encodeL_last_lt p.others p.rVal v hgt

open FragmentPath in
/-- The shape of a successful pop-and-increment: a (possibly empty)
suffix of the indices is dropped and the digit before it increases. -/
theorem popIncGo_decomp :
    ∀ (f : Nat) (p q : FragmentPath), popIncGo f p = .ok q →
      ∃ m x s y, p.present = m ++ [x] ++ s ∧ q.present = m ++ [y] ∧
        x < y := by
  intro f
  induction f with
  | zero => intro p q h; exact absurd h (by simp [FragmentPath.popIncGo])
  | succ f ih =>
    intro p q h
    simp only [FragmentPath.popIncGo] at h
    cases hpop : p.pop with
    | error e => rw [hpop] at h; exact absurd h (by simp)
    | ok q' =>
      rw [hpop] at h
      dsimp only at h
      obtain ⟨-, -, -, hdec⟩ := pop_ok p q' hpop
      cases hinc : q'.increment with
      | ok r =>
        rw [hinc] at h
        have hrq : r = q := (Except.ok.injEq _ _).mp h
        subst hrq
        obtain ⟨r', v, hr', hloop, hq⟩ := increment_ok q' r hinc
        obtain ⟨-, -, hgt⟩ := incGo_ok_facts q'.others q'.ceilOf _ _ _ hloop
        have hrid : q'.rIdx = r' := by simp [FragmentPath.rIdx, hr']
        have h1 : r.present = q'.others ++ [v] := by
          rw [hq, ← hrid]
          exact setSlot_rIdx_some_present q' v (by simp [hr'])
        have h2 : q'.present = q'.others ++ [q'.rVal] :=
          present_decomp q' (by simp [hr'])
        exact ⟨q'.others, q'.rVal, [p.rVal], v,
          by rw [hdec, h2], h1, hgt⟩
      | error e =>
        rw [hinc] at h
        cases e with
        | IndexOverflow =>
          obtain ⟨m, x, s, y, h1, h2, hxy⟩ := ih q' q h
          exact ⟨m, x, s ++ [p.rVal], y,
            by rw [hdec, h1]; simp, h2, hxy⟩
        | Overflow => exact absurd h (by simp)
        | Underflow => exact absurd h (by simp)
        | CannotIncrementEmpty => exact absurd h (by simp)

open FragmentPath in
/-- `pop_and_increment` strictly increases the encoding of a disjoint
path. -/
theorem popIncGo_encode (f : Nat) (p q : FragmentPath)
    (hd : p.disjointB = true) (h : popIncGo f p = .ok q) :
    encodeP p < encodeP q := by
  obtain ⟨m, x, s, y, h1, h2, hxy⟩ := popIncGo_decomp f p q h
  obtain ⟨-, hlt⟩ := (disjointB_iff p).mp hd
  rw [encodeP, encodeP, h1, h2]
  apply encodeL_jump m x s y hxy
  · intro z hz
    exact hlt z (by
      rw [h1]
      exact List.mem_append_right _ hz)
  · have := present_length_le p
    rw [h1] at this
    simp at this
    omega

/-- The hole-freedom invariant of reachable cursors: an unset first slot
means a fully unoccupied path. -/
def emptyInv (p : FragmentPath) : Prop :=
  p.isEmptyB = true → p.present = []

open FragmentPath in
/-- A successful `append` leaves the first slot occupied. -/
theorem append_emptyB (p q : FragmentPath) (hI : emptyInv p)
    (h : p.append = .ok q) : q.isEmptyB = false := by
  by_cases hf : p.isFullB
  · rw [append, if_pos hf] at h; exact absurd h (by simp)
  · have hf' : p.isFullB = false := by simpa using hf
    rw [append_eq_ok p hf'] at h
    have hq : q = p.setSlot p.appendSlot (some (scanUp p.present 0)) :=
      ((Except.ok.injEq _ _).mp h).symm
    by_cases h0 : p.appendSlot = 0
    · rw [hq, h0]
      rfl
    · have hs0 : q.s0 = p.s0 := by
        rw [hq]
        exact setSlot_s0 p _ _ (by omega)
      cases hx : p.s0 with
      | some v => rw [FragmentPath.isEmptyB, hs0, hx]; rfl
      | none =>
        exfalso
        have hemp : p.isEmptyB = true := by
          rw [FragmentPath.isEmptyB, hx]; rfl
        have hpres := hI hemp
        have hnone : p.rightmostIdx? = none := (present_nil_iff p).mp hpres
        rw [FragmentPath.appendSlot, hnone] at h0
        exact h0 rfl

open FragmentPath in
/-- A successful `increment` of a hole-free path leaves the first slot
occupied. -/
theorem increment_emptyB (p q : FragmentPath) (hI : emptyInv p)
    (h : p.increment = .ok q) : q.isEmptyB = false := by
  obtain ⟨r, v, hr, -, hq⟩ := increment_ok p q h
  by_cases h0 : r = 0
  · rw [hq, h0]
    rfl
  · have hs0 : q.s0 = p.s0 := by
      rw [hq]
      exact setSlot_s0 p _ _ (by omega)
    cases hx : p.s0 with
    | some v' => rw [FragmentPath.isEmptyB, hs0, hx]; rfl
    | none =>
      exfalso
      have hemp : p.isEmptyB = true := by
        rw [FragmentPath.isEmptyB, hx]; rfl
      have hpres := hI hemp
      have hnone : p.rightmostIdx? = none := (present_nil_iff p).mp hpres
      rw [hnone] at hr
      exact absurd hr (by simp)

open FragmentPath in
/-- A successful `pop` preserves hole-freedom. -/
theorem pop_emptyInv (p q : FragmentPath) (h : p.pop = .ok q) :
    emptyInv q := by
  obtain ⟨hemp, hq, hpres, -⟩ := pop_ok p q h
  by_cases hr0 : p.rIdx = 0
  · intro _
    rw [hpres, FragmentPath.others, hr0]
    rfl
  · intro hc
    exfalso
    have hs0 : q.s0 = p.s0 := by
      rw [hq]
      exact setSlot_s0 p _ _ (by omega)
    cases hx : p.s0 with
    | none => rw [FragmentPath.isEmptyB, hx] at hemp; exact absurd hemp (by simp)
    | some v =>
      rw [FragmentPath.isEmptyB, hs0, hx] at hc
      exact absurd hc (by simp)

open FragmentPath in
/-- Pop-and-increment always returns a path with an occupied first
slot. -/
theorem popIncGo_emptyB :
    ∀ (f : Nat) (p q : FragmentPath), popIncGo f p = .ok q →
      q.isEmptyB = false := by
  intro f
  induction f with
  | zero => intro p q h; exact absurd h (by simp [FragmentPath.popIncGo])
  | succ f ih =>
    intro p q h
    simp only [FragmentPath.popIncGo] at h
    cases hpop : p.pop with
    | error e => rw [hpop] at h; exact absurd h (by simp)
    | ok q' =>
      rw [hpop] at h
      dsimp only at h
      have hI' := pop_emptyInv p q' hpop
      cases hinc : q'.increment with
      | ok r =>
        rw [hinc] at h
        have : r = q := (Except.ok.injEq _ _).mp h
        exact this ▸ increment_emptyB q' r hI' hinc
      | error e =>
        rw [hinc] at h
        cases e with
        | IndexOverflow => exact ih q' q h
        | Overflow => exact absurd h (by simp)
        | Underflow => exact absurd h (by simp)
        | CannotIncrementEmpty => exact absurd h (by simp)

open FragmentPath in
/-- The solve loop with an unexpiring time oracle and enough fuel always
returns, preserving the cursor invariants; it either finishes or
strictly advances the cursor. -/
theorem solveGo_term :
    ∀ (fuel i : Nat) (s : Solver),
      s.dictionary ≠ [] → s.path.disjointB = true → emptyInv s.path →
      194481 ≤ fuel + encodeP s.path →
      ∃ s' w, solveGo (fun _ => false) fuel i s = .out s' w ∧
        s'.dictionary = s.dictionary ∧ s'.path.disjointB = true ∧
        emptyInv s'.path ∧
        (s'.is_finished = true ∨
          (s'.is_finished = s.is_finished ∧
            encodeP s.path < encodeP s'.path)) := by
  intro fuel
  induction fuel with
  | zero =>
    intro i s hd hdis hI hge
    exfalso
    have := encodeP_lt s.path hdis
    omega
  | succ fuel ih =>
    intro i s hd hdis hI hge
    rcases solveIter_spec s with ⟨r, hiter, hcases⟩ |
      ⟨path', sol', hsol, hout, hstep, -⟩ | ⟨sol', hiter, hsol, -⟩
    · exfalso
      rcases hcases with ⟨-, hpres, hpfx⟩ | ⟨-, hinc, hemp⟩
      · have hw : s.current_word = "" := by
          rw [Solver.current_word, FragmentPath.word, hpres]
          rfl
        rw [hw] at hpfx
        cases hdd : s.dictionary with
        | nil => exact hd hdd
        | cons a t =>
          rw [containsPfx, hdd] at hpfx
          simp [String.data] at hpfx
      · have hpres := hI hemp
        have := (increment_CIE_iff s.path).mpr
          ((present_nil_iff s.path).mp hpres)
        rw [this] at hinc
        exact absurd ((Except.error.injEq _ _).mp hinc) (by simp)
    · have hdis' : path'.disjointB = true := by
        rcases hstep with h | h | h
        · exact append_disjoint s.path path' hdis h
        · exact increment_disjoint s.path path' hdis h
        · exact pop_and_increment_disjoint s.path path' hdis h
      have henc : encodeP s.path < encodeP path' := by
        rcases hstep with h | h | h
        · exact append_encode s.path path' h
        · exact increment_encode s.path path' h
        · exact popIncGo_encode 5 s.path path' hdis h
      have hempB : path'.isEmptyB = false := by
        rcases hstep with h | h | h
        · exact append_emptyB s.path path' hI h
        · exact increment_emptyB s.path path' hI h
        · exact popIncGo_emptyB 5 s.path path' h
      have hI' : emptyInv path' := by
        intro hc
        rw [hempB] at hc
        exact absurd hc (by simp)
      rcases hout with ⟨hiter, -⟩ | ⟨hiter, -⟩
      · obtain ⟨s', w, hgo, hdict, hdis'', hI'', hfin⟩ :=
          ih (i + 1) { s with path := path', solution := sol' }
            hd hdis' hI' (show 194481 ≤ fuel + encodeP path' by omega)
        refine ⟨s', w, ?_, hdict, hdis'', hI'', ?_⟩
        · simp only [solveGo]
          rw [hiter]
          dsimp only
          rw [if_neg (by simp)]
          exact hgo
        · rcases hfin with hf | ⟨hf, he⟩
          · exact Or.inl hf
          · exact Or.inr ⟨hf, lt_trans henc he⟩
      · refine ⟨{ s with path := path', solution := sol' }, some s.path,
          ?_, rfl, hdis', hI', Or.inr ⟨rfl, henc⟩⟩
        simp only [solveGo]
        rw [hiter]
    · refine ⟨{ s with solution := sol', is_finished := true }, none,
        ?_, rfl, hdis, hI, Or.inl rfl⟩
      simp only [solveGo]
      rw [hiter]

open FragmentPath in
/-- `solve_fully` with the canonical fuel returns a finished solver from
any unfinished-or-finished state satisfying the invariants, provided the
dictionary is non-empty. -/
theorem solveFully_term :
    ∀ (outerFuel : Nat) (s : Solver),
      s.dictionary ≠ [] → s.path.disjointB = true → emptyInv s.path →
      194482 ≤ outerFuel + encodeP s.path →
      ∃ s', solve_fully 194481 outerFuel s = .done s' ∧
        s'.is_finished = true := by
  intro outerFuel
  induction outerFuel with
  | zero =>
    intro s hd hdis hI hge
    exfalso
    have := encodeP_lt s.path hdis
    omega
  | succ outerFuel ih =>
    intro s hd hdis hI hge
    by_cases hfin : s.is_finished = true
    · exact ⟨s, by simp [solve_fully, hfin], hfin⟩
    · have hsolve : solve (fun _ => false) 194481 s
          = solveGo (fun _ => false) 194481 0 s := by
        rw [solve, if_neg (by simp [hdis]), if_neg hfin]
      obtain ⟨s', w, hgo, hdict, hdis', hI', hout⟩ :=
        solveGo_term 194481 0 s hd hdis hI (by omega)
      have hrec : solve_fully 194481 (outerFuel + 1) s
          = solve_fully 194481 outerFuel s' := by
        simp only [solve_fully]
        rw [if_neg hfin, hsolve, hgo]
      rcases hout with hf | ⟨hf, he⟩
      · -- already finished: the next outer pass returns it at once.
        have henc := encodeP_lt s.path hdis
        have hfuel : 1 ≤ outerFuel := by omega
        obtain ⟨g, rfl⟩ : ∃ g, outerFuel = g + 1 := ⟨outerFuel - 1, by omega⟩
        refine ⟨s', ?_, hf⟩
        rw [hrec]
        simp [solve_fully, hf]
      · obtain ⟨s'', hdone, hfin''⟩ := ih s' (hdict ▸ hd) hdis' hI' (by omega)
        exact ⟨s'', by rw [hrec]; exact hdone, hfin''⟩

/-- A fragment list for concrete counterexample states. -/
def c3CexSolver : Solver := Solver.new [] abcFragments

/-- C3 counterexample: with an empty dictionary, `solve_fully` does not
terminate normally — the very first pass of the solve loop reaches the
`Err(_) => unreachable!()` arm of the increment match (the empty cursor
is not a dictionary prefix, so nothing is appended, and incrementing an
empty path reports `CannotIncrementEmpty`, which that match does not
handle), so the Rust program panics instead of returning a finished
solver. -/
theorem c3_counterexample :
    solve_fully 194481 194482 c3CexSolver
      = .panicked .unreachableIncrement := by decide

/-- C3 (amended): for every non-empty dictionary and fragment array,
`solve_fully` terminates within the finite search space (at most
21^4 = 194481 solve-loop passes) and the returned solver is finished. -/
theorem c3_solve_fully_terminates :
    ∀ (d frags : List String), d ≠ [] → frags.length = 20 →
      ∃ s', solve_fully 194481 194482 (Solver.new d frags) = .done s' ∧
        s'.is_finished = true := by
  intro d frags hd _
  apply solveFully_term 194482 (Solver.new d frags) hd
  · show FragmentPath.empty.disjointB = true
    decide
  · show emptyInv FragmentPath.empty
    intro _
    rfl
  · show 194482 ≤ 194482 + encodeP FragmentPath.empty
    omega

/-- C3 witness: a concrete non-empty dictionary and 20 fragments. -/
theorem c3_witness :
    (["a"] : List String) ≠ [] ∧ abcFragments.length = 20 ∧
    ∃ s', solve_fully 194481 194482 (Solver.new ["a"] abcFragments)
        = .done s' ∧ s'.is_finished = true :=
  ⟨by decide, by decide,
    c3_solve_fully_terminates ["a"] abcFragments (by decide) (by decide)⟩

/-!
## The enumeration as index sequences

On packed paths the enumeration primitives act on the list of occupied
indices: `appendL`, `incL`, `popincL` are the list forms, proved to
correspond to the `FragmentPath` operations through `pack`.
-/

/-- List form of `append` on a packed path: add the least unused
index. -/
def appendL (l : List Nat) : List Nat :=
  l ++ [FragmentPath.scanUp l 0]

/-- List form of `increment` on a packed path: advance the last index to
the next value unused by the earlier ones. -/
def incL (l : List Nat) : Except FragmentPathError (List Nat) :=
  match l.getLast? with
  | none => .error .CannotIncrementEmpty
  | some x =>
    match FragmentPath.incLoop l.dropLast
        (FragmentPath.scanDown l.dropLast 19) x with
    | .ok v => .ok (l.dropLast ++ [v])
    | .error e => .error e

/-- List form of the pop-and-increment loop. -/
def popIncGoL : Nat → List Nat → Except FragmentPathError (List Nat)
  | 0, _ => .error .Underflow
  | f + 1, l =>
    if l = [] then .error .Underflow
    else
      match incL l.dropLast with
      | .ok r => .ok r
      | .error .IndexOverflow => popIncGoL f l.dropLast
      | .error e => .error e

/-- List form of `pop_and_increment`. -/
def popincL (l : List Nat) : Except FragmentPathError (List Nat) :=
  popIncGoL 5 l

/-- One step of the enumeration on index sequences: descend via append
when possible, otherwise next sibling via increment, otherwise
backtrack; `none` when the search space is exhausted. -/
def nextL (l : List Nat) : Option (List Nat) :=
  if l.length < 4 then some (appendL l)
  else
    match incL l with
    | .ok m => some m
    | .error _ =>
      match popincL l with
      | .ok m => some m
      | .error _ => none

/-- One step of the enumeration on fragment paths, via the source
operations: append (descend when possible), increment (next sibling),
pop-and-increment (backtrack); `none` on `CannotIncrementEmpty`. -/
def enumStep (p : FragmentPath) : Option FragmentPath :=
  match p.append with
  | .ok q => some q
  | .error _ =>
    match p.increment with
    | .ok q => some q
    | .error _ =>
      match p.pop_and_increment with
      | .ok q => some q
      | .error _ => none

/-- The visited sequences: the start and every sequence reached by
iterating `nextL`, with fuel. -/
def listIter : Nat → List Nat → List (List Nat)
  | 0, l => [l]
  | f + 1, l =>
    l :: (match nextL l with
      | some m => listIter f m
      | none => [])

/-- The visited paths: the start and every path reached by iterating
`enumStep`, with fuel. -/
def arrIter : Nat → FragmentPath → List FragmentPath
  | 0, p => [p]
  | f + 1, p =>
    p :: (match enumStep p with
      | some q => arrIter f q
      | none => [])

/-- All paths visited by the enumeration started from the empty path
(the empty path itself is not part of the visit). -/
def enumAll : List FragmentPath :=
  (arrIter 194482 FragmentPath.empty).tail

open FragmentPath in
/-- `pack` restores exactly the given indices (for at most four). -/
theorem present_pack : ∀ l : List Nat, l.length ≤ 4 →
    (pack l).present = l := by
  intro l h
  match l with
  | [] => rfl
  | [a] => rfl
  | [a, b] => rfl
  | [a, b, c] => rfl
  | [a, b, c, d] => rfl
  | a :: b :: c :: d :: e :: rest =>
    exfalso
    simp only [List.length_cons] at h
    omega

open FragmentPath in
/-- `pack` is injective on sequences of at most four indices. -/
theorem pack_inj (l m : List Nat) (hl : l.length ≤ 4) (hm : m.length ≤ 4)
    (h : pack l = pack m) : l = m := by
  have h1 := present_pack l hl
  have h2 := present_pack m hm
  rw [← h1, ← h2, h]

open FragmentPath in
/-- `append` on a packed non-full path descends to the packed extension
by the least unused index. -/
theorem corr_append_ok : ∀ l : List Nat, l.length < 4 →
    (pack l).append = .ok (pack (appendL l)) := by
  intro l h
  match l with
  | [] => rfl
  | [a] => rfl
  | [a, b] => rfl
  | [a, b, c] => rfl
  | a :: b :: c :: d :: rest =>
    exfalso
    simp only [List.length_cons] at h
    omega

open FragmentPath in
/-- `append` on a packed full path overflows. -/
theorem corr_append_full : ∀ l : List Nat, l.length = 4 →
    (pack l).append = .error .Overflow := by
  intro l h
  match l with
  | [a, b, c, d] => rfl
  | [] | [a] | [a, b] | [a, b, c] => simp at h
  | a :: b :: c :: d :: e :: rest =>
    exfalso
    simp only [List.length_cons] at h
    omega

open FragmentPath in
/-- `increment` on a packed path is the list increment, packed. -/
theorem corr_inc : ∀ l : List Nat, l.length ≤ 4 →
    (pack l).increment = (incL l).map pack := by
  intro l h
  match l with
  | [] => rfl
  | [a] =>
    have hincL : incL [a] = (match incLoop [] (scanDown [] 19) a with
      | .ok v => .ok ([] ++ [v])
      | .error e => .error e) := rfl
    rw [increment_eq (pack [a]) 0 rfl]
    have ho : (pack [a]).others = ([] : List Nat) := rfl
    have hc : (pack [a]).ceilOf = scanDown [] 19 := rfl
    have hr : (pack [a]).rVal = a := rfl
    rw [ho, hc, hr, hincL]
    cases hv : incLoop [] (scanDown [] 19) a with
    | ok v => rfl
    | error e => rfl
  | [a, b] =>
    have hincL : incL [a, b] = (match incLoop [a] (scanDown [a] 19) b with
      | .ok v => .ok ([a] ++ [v])
      | .error e => .error e) := rfl
    rw [increment_eq (pack [a, b]) 1 rfl]
    have ho : (pack [a, b]).others = [a] := rfl
    have hc : (pack [a, b]).ceilOf = scanDown [a] 19 := rfl
    have hr : (pack [a, b]).rVal = b := rfl
    rw [ho, hc, hr, hincL]
    cases hv : incLoop [a] (scanDown [a] 19) b with
    | ok v => rfl
    | error e => rfl
  | [a, b, c] =>
    have hincL : incL [a, b, c] = (match incLoop [a, b] (scanDown [a, b] 19) c with
      | .ok v => .ok ([a, b] ++ [v])
      | .error e => .error e) := rfl
    rw [increment_eq (pack [a, b, c]) 2 rfl]
    have ho : (pack [a, b, c]).others = [a, b] := rfl
    have hc : (pack [a, b, c]).ceilOf = scanDown [a, b] 19 := rfl
    have hr : (pack [a, b, c]).rVal = c := rfl
    rw [ho, hc, hr, hincL]
    cases hv : incLoop [a, b] (scanDown [a, b] 19) c with
    | ok v => rfl
    | error e => rfl
  | [a, b, c, d] =>
    have hincL : incL [a, b, c, d]
        = (match incLoop [a, b, c] (scanDown [a, b, c] 19) d with
          | .ok v => .ok ([a, b, c] ++ [v])
          | .error e => .error e) := rfl
    rw [increment_eq (pack [a, b, c, d]) 3 rfl]
    have ho : (pack [a, b, c, d]).others = [a, b, c] := rfl
    have hc : (pack [a, b, c, d]).ceilOf = scanDown [a, b, c] 19 := rfl
    have hr : (pack [a, b, c, d]).rVal = d := rfl
    rw [ho, hc, hr, hincL]
    cases hv : incLoop [a, b, c] (scanDown [a, b, c] 19) d with
    | ok v => rfl
    | error e => rfl
  | a :: b :: c :: d :: e :: rest =>
    exfalso
    simp only [List.length_cons] at h
    omega

open FragmentPath in
/-- `pop` on a packed non-empty path drops the last index. -/
theorem corr_pop : ∀ (l : List Nat) (x : Nat), (l ++ [x]).length ≤ 4 →
    (pack (l ++ [x])).pop = .ok (pack l) := by
  intro l x h
  match l with
  | [] => rfl
  | [a] => rfl
  | [a, b] => rfl
  | [a, b, c] => rfl
  | a :: b :: c :: d :: rest =>
    exfalso
    simp only [List.length_append, List.length_cons] at h
    omega

open FragmentPath in
/-- The pop-and-increment loop on a packed path is the list loop,
packed. -/
theorem corr_popIncGo :
    ∀ (f : Nat) (l : List Nat), l.length ≤ 4 →
      FragmentPath.popIncGo f (pack l) = (popIncGoL f l).map pack := by
  intro f
  induction f with
  | zero => intro l h; rfl
  | succ f ih =>
    intro l h
    cases l with
    | nil => rfl
    | cons a rest =>
      have hne : a :: rest ≠ [] := by simp
      have hdecomp : (a :: rest).dropLast ++ [(a :: rest).getLast hne]
          = a :: rest := List.dropLast_append_getLast hne
      have hlen : (a :: rest).dropLast.length ≤ 4 := by
        rw [List.length_dropLast]
        omega
      have hpop : (pack (a :: rest)).pop
          = .ok (pack (a :: rest).dropLast) := by
        conv_lhs => rw [← hdecomp]
        exact corr_pop (a :: rest).dropLast ((a :: rest).getLast hne)
          (by rw [hdecomp]; exact h)
      have hL : FragmentPath.popIncGo (f + 1) (pack (a :: rest))
          = (match (pack (a :: rest).dropLast).increment with
            | .ok r => .ok r
            | .error .IndexOverflow =>
              FragmentPath.popIncGo f (pack (a :: rest).dropLast)
            | .error e => .error e) := by
        simp only [FragmentPath.popIncGo]
        rw [hpop]
      have hR : popIncGoL (f + 1) (a :: rest)
          = (match incL (a :: rest).dropLast with
            | .ok r => .ok r
            | .error .IndexOverflow => popIncGoL f (a :: rest).dropLast
            | .error e => .error e) := by
        simp only [popIncGoL]
        rw [if_neg hne]
      rw [hL, hR, corr_inc (a :: rest).dropLast hlen]
      cases hi : incL (a :: rest).dropLast with
      | ok r => rfl
      | error e =>
        cases e with
        | IndexOverflow => exact ih (a :: rest).dropLast hlen
        | Overflow => rfl
        | Underflow => rfl
        | CannotIncrementEmpty => rfl

/-- A successful list increment preserves the length. -/
theorem incL_ok_length (l m : List Nat) (h : incL l = .ok m) :
    m.length = l.length := by
  rw [incL] at h
  cases hgl : l.getLast? with
  | none => rw [hgl] at h; exact absurd h (by simp)
  | some x =>
    rw [hgl] at h
    dsimp only at h
    have hne : l ≠ [] := by
      intro hnil
      rw [hnil] at hgl
      exact absurd hgl (by simp)
    cases hv : FragmentPath.incLoop l.dropLast
        (FragmentPath.scanDown l.dropLast 19) x with
    | ok v =>
      rw [hv] at h
      have : l.dropLast ++ [v] = m := (Except.ok.injEq _ _).mp h
      rw [← this]
      simp [List.length_dropLast]
      have : l.length ≠ 0 := by simpa using hne
      omega
    | error e => rw [hv] at h; exact absurd h (by simp)

/-- A successful list pop-and-increment strictly shrinks the length. -/
theorem popIncGoL_length :
    ∀ (f : Nat) (l m : List Nat), popIncGoL f l = .ok m →
      m.length < l.length := by
  intro f
  induction f with
  | zero => intro l m h; exact absurd h (by simp [popIncGoL])
  | succ f ih =>
    intro l m h
    simp only [popIncGoL] at h
    by_cases hne : l = []
    · rw [if_pos hne] at h; exact absurd h (by simp)
    · rw [if_neg hne] at h
      have hlen : l.length ≠ 0 := by simpa using hne
      cases hi : incL l.dropLast with
      | ok r =>
        rw [hi] at h
        have : r = m := (Except.ok.injEq _ _).mp h
        have hlr := incL_ok_length l.dropLast r hi
        rw [← this, hlr, List.length_dropLast]
        omega
      | error e =>
        rw [hi] at h
        cases e with
        | IndexOverflow =>
          have := ih l.dropLast m h
          rw [List.length_dropLast] at this
          omega
        | Overflow => exact absurd h (by simp)
        | Underflow => exact absurd h (by simp)
        | CannotIncrementEmpty => exact absurd h (by simp)

/-- One enumeration step keeps sequences within four indices. -/
theorem nextL_length (l m : List Nat) (h4 : l.length ≤ 4)
    (h : nextL l = some m) : m.length ≤ 4 := by
  rw [nextL] at h
  by_cases hlt : l.length < 4
  · rw [if_pos hlt] at h
    have : appendL l = m := (Option.some.injEq _ _).mp h
    rw [← this, appendL]
    simp
    omega
  · rw [if_neg hlt] at h
    cases hi : incL l with
    | ok r =>
      rw [hi] at h
      have : r = m := (Option.some.injEq _ _).mp h
      rw [← this, incL_ok_length l r hi]
      exact h4
    | error e =>
      rw [hi] at h
      cases hp : popincL l with
      | ok r =>
        rw [hp] at h
        have hrm : r = m := (Option.some.injEq _ _).mp h
        have hlt := popIncGoL_length 5 l r hp
        rw [← hrm]
        omega
      | error e' => rw [hp] at h; exact absurd h (by simp)

open FragmentPath in
/-- One enumeration step on a packed path is the list step, packed. -/
theorem corr_step (l : List Nat) (h : l.length ≤ 4) :
    enumStep (pack l) = (nextL l).map pack := by
  by_cases h4 : l.length < 4
  · simp only [enumStep]
    rw [corr_append_ok l h4]
    rw [nextL, if_pos h4]
    rfl
  · have h4' : l.length = 4 := by omega
    simp only [enumStep]
    rw [corr_append_full l h4', corr_inc l h]
    rw [nextL, if_neg h4]
    cases hi : incL l with
    | ok m => rfl
    | error e =>
      show (match (pop_and_increment (pack l)) with
        | .ok q => some q
        | .error _ => none) = _
      have hpl : popIncGoL 5 l = popincL l := rfl
      rw [pop_and_increment, corr_popIncGo 5 l h, hpl]
      show _ = (match popincL l with
        | .ok m => some m
        | .error _ => none).map pack
      cases hp : popincL l with
      | ok m => rfl
      | error e' => rfl

open FragmentPath in
/-- The visited paths from a packed start are the packed visited
sequences. -/
theorem arrIter_map :
    ∀ (f : Nat) (l : List Nat), l.length ≤ 4 →
      arrIter f (pack l) = (listIter f l).map pack := by
  intro f
  induction f with
  | zero => intro l h; rfl
  | succ f ih =>
    intro l h
    simp only [arrIter, listIter]
    rw [corr_step l h]
    cases hn : nextL l with
    | none => rfl
    | some m =>
      show pack l :: arrIter f (pack m) = _
      rw [ih m (nextL_length l m h hn)]
      rfl

/-!
## The lexicographic order on index sequences

The enumeration visits sequences in strict lexicographic order (a proper
prefix precedes its extensions).  These are general facts about
`List.Lex (· < ·)` on `List Nat` used to show that each enumeration step
moves to the immediate successor.
-/

/-- Lexicographic order is irreflexive. -/
theorem lexN_irrefl : ∀ l : List Nat, ¬ List.Lex (· < ·) l l := by
  intro l
  induction l with
  | nil => intro h; cases h
  | cons a t ih =>
    intro h
    cases h with
    | cons h' => exact ih h'
    | rel h' => exact lt_irrefl a h'

/-- Lexicographic order is transitive. -/
theorem lexN_trans : ∀ {a b c : List Nat},
    List.Lex (· < ·) a b → List.Lex (· < ·) b c → List.Lex (· < ·) a c := by
  intro a b c h1
  induction h1 generalizing c with
  | nil =>
    intro h2
    cases h2 with
    | cons h' => exact List.Lex.nil
    | rel h' => exact List.Lex.nil
  | cons h ih =>
    intro h2
    cases h2 with
    | cons h' => exact List.Lex.cons (ih h')
    | rel h' => exact List.Lex.rel h'
  | rel hxy =>
    intro h2
    cases h2 with
    | cons h' => exact List.Lex.rel hxy
    | rel h' => exact List.Lex.rel (lt_trans hxy h')

/-- A list precedes any proper extension of itself. -/
theorem lexN_ext : ∀ (l t : List Nat), t ≠ [] → List.Lex (· < ·) l (l ++ t) := by
  intro l
  induction l with
  | nil =>
    intro t ht
    cases t with
    | nil => exact absurd rfl ht
    | cons c t' => exact List.Lex.nil
  | cons a l' ih =>
    intro t ht
    exact List.Lex.cons (ih t ht)

/-- No extension of a list precedes the list itself. -/
theorem lexN_not_ext_self : ∀ (u t : List Nat), ¬ List.Lex (· < ·) (u ++ t) u := by
  intro u
  induction u with
  | nil => intro t h; exact List.Lex.not_nil_right _ _ h
  | cons a u' ih =>
    intro t h
    cases h with
    | cons h' => exact ih t h'
    | rel h' => exact lt_irrefl a h'

/-- Sequences deviating at a common position compare by that position. -/
theorem lexN_middle : ∀ (p : List Nat) (x y : Nat) (s t : List Nat), x < y →
    List.Lex (· < ·) (p ++ x :: s) (p ++ y :: t) := by
  intro p
  induction p with
  | nil => intro x y s t h; exact List.Lex.rel h
  | cons a p' ih => intro x y s t h; exact List.Lex.cons (ih x y s t h)

/-- A common prefix cancels on both sides of a lexicographic comparison. -/
theorem lexN_cancel : ∀ (d a b : List Nat),
    List.Lex (· < ·) (d ++ a) (d ++ b) → List.Lex (· < ·) a b := by
  intro d
  induction d with
  | nil => intro a b h; exact h
  | cons c d' ih =>
    intro a b h
    cases h with
    | cons h' => exact ih a b h'
    | rel h' => exact absurd h' (lt_irrefl c)

/-- If an extension of `d` precedes `v` then either `d` is a prefix of
`v` or `d` itself precedes `v`. -/
theorem lexN_append_or : ∀ (d t v : List Nat), List.Lex (· < ·) (d ++ t) v →
    d <+: v ∨ List.Lex (· < ·) d v := by
  intro d
  induction d with
  | nil => intro t v _; exact Or.inl ⟨v, rfl⟩
  | cons a d' ih =>
    intro t v h
    cases h with
    | cons h' =>
      rename_i l2
      rcases ih t l2 h' with hp | hl
      · rcases hp with ⟨r, hr⟩
        exact Or.inl ⟨r, by rw [List.cons_append, hr]⟩
      · exact Or.inr (List.Lex.cons hl)
    | rel h' => exact Or.inr (List.Lex.rel h')

/-- If `d` precedes `v` but is not a prefix of `v`, every extension of
`d` also precedes `v`. -/
theorem lexN_append_of_dev : ∀ (d m : List Nat), List.Lex (· < ·) d m →
    ¬ (d <+: m) → ∀ t, List.Lex (· < ·) (d ++ t) m := by
  intro d
  induction d with
  | nil => intro m _ hp _; exact absurd ⟨m, rfl⟩ hp
  | cons a d' ih =>
    intro m h hp t
    cases h with
    | cons h' =>
      rename_i l2
      refine List.Lex.cons (ih l2 h' ?_ t)
      intro hpp
      rcases hpp with ⟨r, hr⟩
      exact hp ⟨r, by rw [List.cons_append, hr]⟩
    | rel h' => exact List.Lex.rel h'

/-- A lexicographic comparison is either a proper prefix or a pointwise
deviation after a common prefix. -/
theorem lexN_decomp : ∀ {l v : List Nat}, List.Lex (· < ·) l v →
    (∃ t, t ≠ [] ∧ v = l ++ t) ∨
      ∃ p x y s t, x < y ∧ l = p ++ x :: s ∧ v = p ++ y :: t := by
  intro l v h
  induction h with
  | nil =>
    rename_i b bs
    exact Or.inl ⟨b :: bs, by simp, rfl⟩
  | cons h ih =>
    rename_i a l1 l2
    rcases ih with ⟨t, ht, rfl⟩ | ⟨p, x, y, s, t, hxy, rfl, rfl⟩
    · exact Or.inl ⟨t, ht, rfl⟩
    · exact Or.inr ⟨a :: p, x, y, s, t, hxy, rfl, rfl⟩
  | rel hab =>
    rename_i a l1 b l2
    exact Or.inr ⟨[], a, b, l1, l2, hab, rfl, rfl⟩

/-- Appending a value `s` no larger than any value `v` extends `l` with
yields the immediate successor: nothing valid lies strictly between `l`
and `l ++ [s]`. -/
theorem lexN_succ_app : ∀ {l v : List Nat}, List.Lex (· < ·) l v → ∀ s : Nat,
    (∀ rest y, v = l ++ y :: rest → s ≤ y) →
    List.Lex (· < ·) (l ++ [s]) v ∨ l ++ [s] = v := by
  intro l v h
  induction h with
  | nil =>
    rename_i b bs
    intro s hs
    have hsb : s ≤ b := hs bs b rfl
    rcases Nat.lt_or_ge s b with hlt | hge
    · exact Or.inl (List.Lex.rel hlt)
    · have hsb' : s = b := by omega
      subst hsb'
      cases bs with
      | nil => exact Or.inr rfl
      | cons c bs' => exact Or.inl (List.Lex.cons List.Lex.nil)
  | cons h ih =>
    rename_i a l1 l2
    intro s hs
    rcases ih s (fun rest y hy => hs rest y (by rw [hy]; rfl)) with h' | h'
    · exact Or.inl (List.Lex.cons h')
    · exact Or.inr (by rw [List.cons_append, h'])
  | rel hab =>
    rename_i a l1 b l2
    intro s hs
    exact Or.inl (List.Lex.rel hab)

/-- Advancing the last slot from `x` to the least admissible `w` above
`x` yields the immediate successor among sequences that cannot properly
extend `d ++ [x]`. -/
theorem lexN_succ_inc : ∀ (d : List Nat) (x : Nat) (v : List Nat) (w : Nat),
    List.Lex (· < ·) (d ++ [x]) v →
    (∀ rest y, v = d ++ y :: rest → x < y → w ≤ y) →
    (∀ rest, v = d ++ x :: rest → rest = []) →
    List.Lex (· < ·) (d ++ [w]) v ∨ d ++ [w] = v := by
  intro d
  induction d with
  | nil =>
    intro x v w h h1 h2
    cases v with
    | nil => exact absurd h (List.Lex.not_nil_right _ _)
    | cons b bs =>
      cases h with
      | cons h' =>
        cases bs with
        | nil => exact absurd h' (List.Lex.not_nil_right _ _)
        | cons c bs' => exact absurd (h2 (c :: bs') rfl) (by simp)
      | rel h' =>
        have hwb : w ≤ b := h1 bs b rfl h'
        rcases Nat.lt_or_ge w b with hlt | hge
        · exact Or.inl (List.Lex.rel hlt)
        · have hwb' : w = b := by omega
          subst hwb'
          cases bs with
          | nil => exact Or.inr rfl
          | cons c bs' => exact Or.inl (List.Lex.cons List.Lex.nil)
  | cons a d' ih =>
    intro x v w h h1 h2
    cases v with
    | nil => exact absurd h (List.Lex.not_nil_right _ _)
    | cons b bs =>
      cases h with
      | cons h' =>
        rcases ih x bs w h'
            (fun rest y hy hlt => h1 rest y (by rw [hy]; rfl) hlt)
            (fun rest hy => h2 rest (by rw [hy]; rfl)) with hh | hh
        · exact Or.inl (List.Lex.cons hh)
        · exact Or.inr (by rw [List.cons_append, hh])
      | rel h' => exact Or.inl (List.Lex.rel h')

/-- Extending a sequence of fewer than four indices strictly increases
the encoding, for extensions staying within four indices. -/
theorem encodeL_ext_lt : ∀ (t l : List Nat), t ≠ [] → (l ++ t).length ≤ 4 →
    encodeL l < encodeL (l ++ t) := by
  intro t
  induction t with
  | nil => intro l h _; exact absurd rfl h
  | cons c t' ih =>
    intro l _ hlen
    have hl4 : l.length < 4 := by
      simp only [List.length_append, List.length_cons] at hlen
      omega
    by_cases ht' : t' = []
    · subst ht'
      exact encodeL_append_lt l c hl4
    · have h1 : encodeL l < encodeL (l ++ [c]) := encodeL_append_lt l c hl4
      have h2 : encodeL (l ++ [c]) < encodeL ((l ++ [c]) ++ t') := by
        apply ih (l ++ [c]) ht'
        simp only [List.length_append, List.length_singleton]
        simp only [List.length_append, List.length_cons] at hlen
        omega
      have heq : (l ++ [c]) ++ t' = l ++ c :: t' := by
        rw [List.append_assoc, List.singleton_append]
      rw [heq] at h2
      exact lt_trans h1 h2

/-- The encoding is strictly monotone with respect to the lexicographic
order on bounded sequences of at most four indices. -/
theorem encodeL_mono (l v : List Nat) (hl4 : l.length ≤ 4)
    (hl20 : ∀ x ∈ l, x < 20) (hv4 : v.length ≤ 4) (hv20 : ∀ x ∈ v, x < 20)
    (h : List.Lex (· < ·) l v) : encodeL l < encodeL v := by
  rcases lexN_decomp h with ⟨t, ht, rfl⟩ | ⟨p, x, y, s, t, hxy, rfl, rfl⟩
  · exact encodeL_ext_lt t l ht hv4
  · have h1 : encodeL (p ++ [x] ++ s) < encodeL (p ++ [y]) := by
      apply encodeL_jump p x s y hxy
      · intro z hz
        exact hl20 z (by simp [hz])
      · simp only [List.length_append, List.length_cons] at hl4
        omega
    have h2 : encodeL (p ++ [y]) ≤ encodeL (p ++ y :: t) := by
      cases t with
      | nil => exact le_refl _
      | cons c t' =>
        have heq : p ++ y :: c :: t' = (p ++ [y]) ++ (c :: t') := by
          rw [List.append_assoc, List.singleton_append]
        rw [heq]
        refine le_of_lt (encodeL_ext_lt (c :: t') (p ++ [y]) (by simp) ?_)
        rw [← heq]
        exact hv4
    have hsplit : p ++ x :: s = p ++ [x] ++ s := List.append_cons ..
    rw [hsplit]
    exact lt_of_lt_of_le h1 h2

/-!
## Semantics of the list-level enumeration step

`validL` captures the sequences the enumeration ranges over: at most four
mutually distinct indices below 20 (the empty sequence is the start
state).
-/

/-- An admissible index sequence. -/
def validL (l : List Nat) : Prop :=
  l.length ≤ 4 ∧ l.Nodup ∧ ∀ x ∈ l, x < 20

/-- Validity restricts to `dropLast`. -/
theorem validL_dropLast (l : List Nat) (h : validL l) : validL l.dropLast :=
  ⟨le_trans l.dropLast_sublist.length_le h.1,
   h.2.1.sublist l.dropLast_sublist,
   fun x hx => h.2.2 x (l.dropLast_sublist.subset hx)⟩

/-- Assembling a valid sequence from a valid stem and a fresh last
index. -/
theorem validL_concat (d : List Nat) (w : Nat) (hd4 : d.length ≤ 3)
    (hdn : d.Nodup) (hd20 : ∀ x ∈ d, x < 20) (hw : w ∉ d) (hw20 : w < 20) :
    validL (d ++ [w]) := by
  refine ⟨by simp only [List.length_append, List.length_singleton]; omega, ?_, ?_⟩
  · rw [List.nodup_append]
    refine ⟨hdn, List.nodup_singleton w, ?_⟩
    intro a ha hb
    rw [List.mem_singleton] at hb
    subst hb
    exact hw ha
  · intro x hx
    rcases List.mem_append.mp hx with hx | hx
    · exact hd20 x hx
    · rw [List.mem_singleton] at hx
      subst hx
      exact hw20

open FragmentPath in
/-- The upward scan from 0 stays below 20 on short lists. -/
theorem scanUp_lt20 (l : List Nat) (h4 : l.length ≤ 4) : scanUp l 0 < 20 := by
  have h1 := scanUp_le l
  have h2 : l.dedup.length ≤ l.length := l.dedup_sublist.length_le
  omega

/-- A failing list increment fails with `CannotIncrementEmpty` exactly on
the empty sequence and with `IndexOverflow` otherwise. -/
theorem incL_error_cases (l : List Nat) (e : FragmentPathError)
    (h : incL l = .error e) :
    (l = [] ∧ e = .CannotIncrementEmpty) ∨ (l ≠ [] ∧ e = .IndexOverflow) := by
  rcases List.eq_nil_or_concat l with rfl | ⟨d, x, rfl⟩
  · left
    refine ⟨rfl, ?_⟩
    have h' : (Except.error FragmentPathError.CannotIncrementEmpty :
        Except FragmentPathError (List Nat)) = .error e := h
    exact ((Except.error.injEq _ _).mp h').symm
  · right
    rw [List.concat_eq_append] at h ⊢
    refine ⟨by simp, ?_⟩
    rw [incL, List.getLast?_concat, List.dropLast_concat] at h
    dsimp only at h
    cases hv : FragmentPath.incLoop d (FragmentPath.scanDown d 19) x with
    | ok v =>
      rw [hv] at h
      dsimp only at h
      exact absurd h (by simp)
    | error e' =>
      rw [hv] at h
      dsimp only at h
      have he' : e' = .IndexOverflow :=
        FragmentPath.incGo_error d (FragmentPath.scanDown d 19) _ x e' hv
      have hee : e' = e := (Except.error.injEq _ _).mp h
      rw [← hee, he']

open FragmentPath in
/-- Semantics of a successful list increment: the last index moves to the
least admissible value above its current one, the stem is unchanged. -/
theorem incL_ok_sem (d : List Nat) (x : Nat) (m : List Nat)
    (hlen : d.length ≤ 3) (h : incL (d ++ [x]) = .ok m) :
    ∃ w, m = d ++ [w] ∧ x < w ∧ w ∉ d ∧ w < 20 ∧
      ∀ y, x < y → y < 20 → y ∉ d → w ≤ y := by
  rw [incL, List.getLast?_concat, List.dropLast_concat] at h
  dsimp only at h
  obtain ⟨m0, hm0le, hm0notin⟩ := exists_unused d hlen
  have hsd := scanDown_spec d 19 ⟨m0, hm0le, hm0notin⟩
  cases hv : FragmentPath.incLoop d (FragmentPath.scanDown d 19) x with
  | ok v =>
    rw [hv] at h
    dsimp only at h
    have hm : d ++ [v] = m := (Except.ok.injEq _ _).mp h
    obtain ⟨hvnotin, hvle, hxv⟩ := incGo_ok_facts d (FragmentPath.scanDown d 19) _ x v hv
    have hxstop : x < FragmentPath.scanDown d 19 := lt_of_lt_of_le hxv hvle
    obtain ⟨v', hv', -, -, -, hmin⟩ := incLoop_ok d (FragmentPath.scanDown d 19) x hsd.1 hxstop
    rw [hv] at hv'
    have hvv : v = v' := (Except.ok.injEq _ _).mp hv'
    subst hvv
    refine ⟨v, hm.symm, hxv, hvnotin, by omega, ?_⟩
    intro y hxy hy20 hynotin
    by_contra hc
    push_neg at hc
    exact hynotin (hmin y hxy hc)
  | error e =>
    rw [hv] at h
    dsimp only at h
    exact absurd h (by simp)

open FragmentPath in
/-- Semantics of an overflowing list increment: every index above the
last one is already used by the stem. -/
theorem incL_overflow_sem (d : List Nat) (x : Nat) (hlen : d.length ≤ 3)
    (h : incL (d ++ [x]) = .error .IndexOverflow) :
    ∀ y, x < y → y < 20 → y ∈ d := by
  rw [incL, List.getLast?_concat, List.dropLast_concat] at h
  dsimp only at h
  obtain ⟨m0, hm0le, hm0notin⟩ := exists_unused d hlen
  have hsd := scanDown_spec d 19 ⟨m0, hm0le, hm0notin⟩
  by_cases hxs : x < FragmentPath.scanDown d 19
  · obtain ⟨v, hv, -⟩ := incLoop_ok d (FragmentPath.scanDown d 19) x hsd.1 hxs
    rw [hv] at h
    dsimp only at h
    exact absurd h (by simp)
  · push_neg at hxs
    intro y hxy hy20
    by_contra hyd
    have := hsd.2.2 y (by omega) hyd
    omega

/-- A successful list pop-and-increment yields a valid sequence strictly
after the input in lexicographic order. -/
theorem popIncGoL_facts : ∀ (f : Nat) (l m : List Nat), validL l →
    popIncGoL f l = .ok m → validL m ∧ List.Lex (· < ·) l m := by
  intro f
  induction f with
  | zero => intro l m _ h; exact absurd h (by simp [popIncGoL])
  | succ f ih =>
    intro l m hl h
    simp only [popIncGoL] at h
    by_cases hne : l = []
    · rw [if_pos hne] at h; exact absurd h (by simp)
    · rw [if_neg hne] at h
      cases hi : incL l.dropLast with
      | ok r =>
        rw [hi] at h
        have hrm : r = m := (Except.ok.injEq _ _).mp h
        subst hrm
        rcases List.eq_nil_or_concat l.dropLast with hd | ⟨e, x, hd⟩
        · rw [hd] at hi
          exact absurd hi (by simp [incL])
        · rw [List.concat_eq_append] at hd
          rw [hd] at hi
          have hdl := validL_dropLast l hl
          rw [hd] at hdl
          have he3 : e.length ≤ 3 := by
            have := hdl.1
            simp only [List.length_append, List.length_singleton] at this
            omega
          obtain ⟨w, hw, hxw, hwne, hw20, -⟩ := incL_ok_sem e x r he3 hi
          constructor
          · rw [hw]
            refine validL_concat e w he3 ?_ ?_ hwne hw20
            · exact hdl.2.1.sublist (List.sublist_append_left e [x])
            · intro z hz; exact hdl.2.2 z (by simp [hz])
          · have hlast : l.dropLast ++ [l.getLast hne] = l :=
              List.dropLast_append_getLast hne
            rw [hw, ← hlast, hd]
            have hsh : e ++ [x] ++ [l.getLast hne] = e ++ x :: [l.getLast hne] := by
              rw [List.append_assoc, List.singleton_append]
            rw [hsh]
            have hsh2 : e ++ [w] = e ++ w :: ([] : List Nat) := rfl
            rw [hsh2]
            exact lexN_middle e x w _ _ hxw
      | error e =>
        rw [hi] at h
        cases e with
        | IndexOverflow =>
          have hdl := validL_dropLast l hl
          obtain ⟨hm, hlex⟩ := ih l.dropLast m hdl h
          refine ⟨hm, ?_⟩
          have hlen := popIncGoL_length f l.dropLast m h
          have hnp : ¬ (l.dropLast <+: m) := by
            intro hp
            have := hp.length_le
            omega
          have hlast : l.dropLast ++ [l.getLast hne] = l :=
            List.dropLast_append_getLast hne
          rw [← hlast]
          exact lexN_append_of_dev l.dropLast m hlex hnp [l.getLast hne]
        | Overflow => exact absurd h (by simp)
        | Underflow => exact absurd h (by simp)
        | CannotIncrementEmpty => exact absurd h (by simp)

/-- When some valid sequence lies strictly after `l` without extending
it, the pop-and-increment loop succeeds and lands at or before that
sequence: backtracking moves to the immediate successor. -/
theorem popIncGoL_succ : ∀ (f : Nat) (l : List Nat), l.length < f → validL l →
    incL l = .error .IndexOverflow →
    ∀ v, validL v → List.Lex (· < ·) l v → ¬ (l <+: v) →
      ∃ m, popIncGoL f l = .ok m ∧ (List.Lex (· < ·) m v ∨ m = v) := by
  intro f
  induction f with
  | zero => intro l hf; exact absurd hf (by omega)
  | succ f ih =>
    intro l hf hl hov v hv hlv hnp
    rcases List.eq_nil_or_concat l with rfl | ⟨d, x, hd⟩
    · exact absurd ⟨v, rfl⟩ hnp
    · rw [List.concat_eq_append] at hd
      subst hd
      have hd3 : d.length ≤ 3 := by
        have := hl.1
        simp only [List.length_append, List.length_singleton] at this
        omega
      have hsem := incL_overflow_sem d x hd3 hov
      have hdnp : ¬ (d <+: v) := by
        intro hp
        rcases hp with ⟨rest, hrest⟩
        cases rest with
        | nil =>
          rw [List.append_nil] at hrest
          subst hrest
          exact lexN_not_ext_self d [x] hlv
        | cons y r' =>
          subst hrest
          have hcan : List.Lex (· < ·) [x] (y :: r') :=
            lexN_cancel d [x] (y :: r') hlv
          cases hcan with
          | cons htail =>
            cases r' with
            | nil => exact absurd htail (List.Lex.not_nil_right _ _)
            | cons c r'' =>
              exact hnp ⟨c :: r'', by rw [List.append_assoc, List.singleton_append]⟩
          | rel hxy =>
            have hyd : y ∈ d := hsem y hxy (hv.2.2 y (by simp))
            have hynd : y ∉ d := by
              have hnd := hv.2.1
              rw [List.nodup_append] at hnd
              exact fun hyd' => hnd.2.2 hyd' (by simp)
            exact hynd hyd
      have hLdv : List.Lex (· < ·) d v := by
        rcases lexN_append_or d [x] v hlv with hp | hl'
        · exact absurd hp hdnp
        · exact hl'
      have hne : d ++ [x] ≠ [] := by simp
      have hstep : popIncGoL (f + 1) (d ++ [x])
          = (match incL (d ++ [x]).dropLast with
            | .ok r => .ok r
            | .error .IndexOverflow => popIncGoL f (d ++ [x]).dropLast
            | .error e => .error e) := by
        simp only [popIncGoL]
        rw [if_neg hne]
      rw [List.dropLast_concat] at hstep
      cases hi : incL d with
      | ok r =>
        rw [hi] at hstep
        refine ⟨r, hstep, ?_⟩
        rcases List.eq_nil_or_concat d with rfl | ⟨e, x', hde⟩
        · exact absurd hi (by simp [incL])
        · rw [List.concat_eq_append] at hde
          subst hde
          have he3 : e.length ≤ 3 := by
            have := hd3
            simp only [List.length_append, List.length_singleton] at this
            omega
          obtain ⟨w, hw, hx'w, hwne, hw20, hmin⟩ := incL_ok_sem e x' r he3 hi
          rw [hw]
          apply lexN_succ_inc e x' v w hLdv
          · intro rest y hy hlt
            refine hmin y hlt (hv.2.2 y (by rw [hy]; simp)) ?_
            have hnd := hv.2.1
            rw [hy, List.nodup_append] at hnd
            exact fun hye => hnd.2.2 hye (by simp)
          · intro rest hy
            exact absurd ⟨rest, by rw [hy, List.append_assoc, List.singleton_append]⟩ hdnp
      | error e =>
        rw [hi] at hstep
        rcases incL_error_cases d e hi with ⟨rfl, rfl⟩ | ⟨hdne, rfl⟩
        · exact absurd ⟨v, rfl⟩ hdnp
        · have hdlt : d.length < f := by
            simp only [List.length_append, List.length_singleton] at hf
            omega
          have hvd : validL d := by
            have := validL_dropLast (d ++ [x]) hl
            rwa [List.dropLast_concat] at this
          obtain ⟨m, hm, hside⟩ := ih d hdlt hvd hi v hv hLdv hdnp
          exact ⟨m, by rw [hstep]; exact hm, hside⟩

open FragmentPath in
/-- One enumeration step moves from a valid sequence to the immediate
lexicographic successor among valid sequences: the successor is valid,
strictly later, and no valid sequence lies strictly between. -/
theorem nextL_facts (l m : List Nat) (hl : validL l) (h : nextL l = some m) :
    validL m ∧ List.Lex (· < ·) l m ∧
      ∀ v, validL v → List.Lex (· < ·) l v →
        List.Lex (· < ·) m v ∨ m = v := by
  rw [nextL] at h
  by_cases h4 : l.length < 4
  · rw [if_pos h4] at h
    have hm : appendL l = m := (Option.some.injEq _ _).mp h
    subst hm
    have hs20 : scanUp l 0 < 20 := scanUp_lt20 l hl.1
    have hsne : scanUp l 0 ∉ l := scanUp_not_mem l 0
    refine ⟨?_, ?_, ?_⟩
    · show validL (l ++ [scanUp l 0])
      exact validL_concat l (scanUp l 0) (by omega) hl.2.1 hl.2.2 hsne hs20
    · show List.Lex (· < ·) l (l ++ [scanUp l 0])
      exact lexN_ext l [scanUp l 0] (by simp)
    · intro v hv hlv
      refine lexN_succ_app hlv (scanUp l 0) ?_
      intro rest y hy
      by_contra hc
      push_neg at hc
      have hyl : y ∈ l := scanUp_min l 0 y (Nat.zero_le y) hc
      have hnd := hv.2.1
      rw [hy, List.nodup_append] at hnd
      exact hnd.2.2 hyl (by simp)
  · rw [if_neg h4] at h
    have h4' : l.length = 4 := by
      have := hl.1
      omega
    rcases List.eq_nil_or_concat l with rfl | ⟨d, x, hd⟩
    · simp at h4'
    · rw [List.concat_eq_append] at hd
      subst hd
      have hd3 : d.length ≤ 3 := by
        simp only [List.length_append, List.length_singleton] at h4'
        omega
      have hdnd : d.Nodup := by
        have hnd := hl.2.1
        rw [List.nodup_append] at hnd
        exact hnd.1
      have hd20 : ∀ z ∈ d, z < 20 := fun z hz => hl.2.2 z (by simp [hz])
      cases hi : incL (d ++ [x]) with
      | ok r =>
        rw [hi] at h
        have hm : r = m := (Option.some.injEq _ _).mp h
        subst hm
        obtain ⟨w, hw, hxw, hwne, hw20, hmin⟩ := incL_ok_sem d x r hd3 hi
        refine ⟨?_, ?_, ?_⟩
        · rw [hw]
          exact validL_concat d w hd3 hdnd hd20 hwne hw20
        · rw [hw]
          exact lexN_middle d x w [] [] hxw
        · intro v hv hlv
          rw [hw]
          apply lexN_succ_inc d x v w hlv
          · intro rest y hy hlt
            refine hmin y hlt (hv.2.2 y (by rw [hy]; simp)) ?_
            have hnd := hv.2.1
            rw [hy, List.nodup_append] at hnd
            exact fun hye => hnd.2.2 hye (by simp)
          · intro rest hy
            have hlenv := hv.1
            rw [hy] at hlenv
            simp only [List.length_append, List.length_cons] at hlenv
            have : rest.length = 0 := by
              simp only [List.length_append, List.length_singleton] at h4'
              omega
            exact List.eq_nil_of_length_eq_zero this
      | error e =>
        rw [hi] at h
        have he : e = .IndexOverflow := by
          rcases incL_error_cases _ e hi with ⟨hnil, -⟩ | ⟨-, he⟩
          · exact absurd hnil (by simp)
          · exact he
        cases hp : popincL (d ++ [x]) with
        | ok r =>
          rw [hp] at h
          have hm : r = m := (Option.some.injEq _ _).mp h
          subst hm
          obtain ⟨hvm, hlm⟩ := popIncGoL_facts 5 (d ++ [x]) r hl hp
          refine ⟨hvm, hlm, ?_⟩
          intro v hv hlv
          have hnp : ¬ ((d ++ [x]) <+: v) := by
            intro hpre
            have hlen := hpre.length_le
            have heq := hpre.eq_of_length (by
              have := hv.1
              simp only [List.length_append, List.length_singleton] at hlen ⊢
              simp only [List.length_append, List.length_singleton] at h4'
              omega)
            rw [← heq] at hlv
            exact lexN_irrefl _ hlv
          obtain ⟨m', hm', hside⟩ := popIncGoL_succ 5 (d ++ [x])
              (by simp only [List.length_append, List.length_singleton]; omega)
              hl (he ▸ hi) v hv hlv hnp
          have hmr : r = m' := by
            rw [show popIncGoL 5 (d ++ [x]) = popincL (d ++ [x]) from rfl, hp] at hm'
            exact (Except.ok.injEq _ _).mp hm'
          rw [hmr]
          exact hside
        | error e' =>
          rw [hp] at h
          simp at h

/-- When the enumeration step reports exhaustion, no valid sequence lies
strictly after the current one: the cursor is at the lexicographic
maximum. -/
theorem nextL_none_max (l : List Nat) (hl : validL l) (h : nextL l = none) :
    ∀ v, validL v → ¬ List.Lex (· < ·) l v := by
  intro v hv hlv
  rw [nextL] at h
  by_cases h4 : l.length < 4
  · rw [if_pos h4] at h
    exact absurd h (by simp)
  · rw [if_neg h4] at h
    have h4' : l.length = 4 := by
      have := hl.1
      omega
    cases hi : incL l with
    | ok m =>
      rw [hi] at h
      simp at h
    | error e =>
      rw [hi] at h
      cases hp : popincL l with
      | ok m =>
        rw [hp] at h
        simp at h
      | error e' =>
        have hlne : l ≠ [] := by
          intro hnil
          rw [hnil] at h4'
          simp at h4'
        have he : e = .IndexOverflow := by
          rcases incL_error_cases l e hi with ⟨hnil, -⟩ | ⟨-, he⟩
          · exact absurd hnil hlne
          · exact he
        have hnp : ¬ (l <+: v) := by
          intro hpre
          have hlen := hpre.length_le
          have heq := hpre.eq_of_length (by
            have := hv.1
            omega)
          rw [← heq] at hlv
          exact lexN_irrefl _ hlv
        obtain ⟨m, hm, -⟩ := popIncGoL_succ 5 l (by omega) hl (he ▸ hi) v hv hlv hnp
        rw [show popIncGoL 5 l = popincL l from rfl, hp] at hm
        exact absurd hm (by simp)

/-- The start state heads its own visit list. -/
theorem listIter_head_mem : ∀ (f : Nat) (l : List Nat), l ∈ listIter f l := by
  intro f l
  cases f with
  | zero => exact List.mem_singleton.mpr rfl
  | succ f => exact List.mem_cons_self ..

/-- The visit list is its head followed by its tail. -/
theorem listIter_cons_tail (f : Nat) (l : List Nat) :
    listIter f l = l :: (listIter f l).tail := by
  cases f with
  | zero => rfl
  | succ f => rfl

/-- The empty sequence is valid (it is the start state). -/
theorem validL_nil : validL [] := ⟨by simp, List.nodup_nil, by simp⟩

/-- Every visited sequence is valid when the start is. -/
theorem listIter_valid : ∀ (f : Nat) (l : List Nat), validL l →
    ∀ v ∈ listIter f l, validL v := by
  intro f
  induction f with
  | zero =>
    intro l hl v hv
    rw [List.mem_singleton.mp hv]
    exact hl
  | succ f ih =>
    intro l hl v hv
    simp only [listIter] at hv
    cases hn : nextL l with
    | none =>
      rw [hn] at hv
      rcases List.mem_cons.mp hv with rfl | hv'
      · exact hl
      · exact absurd hv' (List.not_mem_nil v)
    | some m =>
      rw [hn] at hv
      rcases List.mem_cons.mp hv with rfl | hv'
      · exact hl
      · exact ih m (nextL_facts l m hl hn).1 v hv'

/-- Every visit after the first is strictly later in the order. -/
theorem listIter_ge : ∀ (f : Nat) (l : List Nat), validL l →
    ∀ v ∈ listIter f l, v = l ∨ List.Lex (· < ·) l v := by
  intro f
  induction f with
  | zero =>
    intro l _ v hv
    exact Or.inl (List.mem_singleton.mp hv)
  | succ f ih =>
    intro l hl v hv
    simp only [listIter] at hv
    cases hn : nextL l with
    | none =>
      rw [hn] at hv
      rcases List.mem_cons.mp hv with rfl | hv'
      · exact Or.inl rfl
      · exact absurd hv' (List.not_mem_nil v)
    | some m =>
      rw [hn] at hv
      rcases List.mem_cons.mp hv with rfl | hv'
      · exact Or.inl rfl
      · obtain ⟨hvm, hlm, -⟩ := nextL_facts l m hl hn
        rcases ih m hvm v hv' with rfl | hmv
        · exact Or.inr hlm
        · exact Or.inr (lexN_trans hlm hmv)

/-- The visit list is strictly increasing in lexicographic order. -/
theorem listIter_pairwise : ∀ (f : Nat) (l : List Nat), validL l →
    (listIter f l).Pairwise (List.Lex (· < ·)) := by
  intro f
  induction f with
  | zero =>
    intro l _
    exact List.Pairwise.cons (fun v hv => absurd hv (List.not_mem_nil v))
      List.Pairwise.nil
  | succ f ih =>
    intro l hl
    simp only [listIter]
    cases hn : nextL l with
    | none =>
      exact List.Pairwise.cons (fun v hv => absurd hv (List.not_mem_nil v))
        List.Pairwise.nil
    | some m =>
      obtain ⟨hvm, hlm, -⟩ := nextL_facts l m hl hn
      refine List.Pairwise.cons ?_ (ih m hvm)
      intro v hv
      rcases listIter_ge f m hvm v hv with rfl | hmv
      · exact hlm
      · exact lexN_trans hlm hmv

/-- With enough fuel the iteration visits every valid sequence after its
start: consecutive visits are immediate successors, so none is skipped. -/
theorem listIter_complete : ∀ (f : Nat) (l v : List Nat), validL l → validL v →
    List.Lex (· < ·) l v → encodeL v ≤ encodeL l + f → v ∈ listIter f l := by
  intro f
  induction f with
  | zero =>
    intro l v hl hv hlv henc
    have hmono := encodeL_mono l v hl.1 hl.2.2 hv.1 hv.2.2 hlv
    exact absurd henc (by omega)
  | succ f ih =>
    intro l v hl hv hlv henc
    cases hn : nextL l with
    | none => exact absurd hlv (nextL_none_max l hl hn v hv)
    | some m =>
      obtain ⟨hvm, hlm, hsucc⟩ := nextL_facts l m hl hn
      simp only [listIter]
      rw [hn]
      rcases hsucc v hv hlv with hmv | rfl
      · have henc2 : encodeL v ≤ encodeL m + f := by
          have := encodeL_mono l m hl.1 hl.2.2 hvm.1 hvm.2.2 hlm
          omega
        exact List.mem_cons_of_mem l (ih m v hvm hv hmv henc2)
      · exact List.mem_cons_of_mem l (listIter_head_mem f m)

/-- The index sequences visited by the full enumeration, in visiting
order (the start state `[]` excluded). -/
def enumAllL : List (List Nat) := (listIter 194482 []).tail

/-- The comparison of fragment paths by their index sequences: the fixed
lexicographic visiting order of the enumeration. -/
def pathLt (p q : FragmentPath) : Prop :=
  List.Lex (· < ·) p.present q.present

open FragmentPath in
/-- The visited paths are the packed visited index sequences. -/
theorem enumAll_eq : enumAll = enumAllL.map pack := by
  show (arrIter 194482 FragmentPath.empty).tail = ((listIter 194482 []).tail).map pack
  rw [show FragmentPath.empty = pack [] from rfl, arrIter_map 194482 [] (by simp)]
  exact (List.map_tail pack _).symm

/-- The enumeration visits exactly the nonempty valid sequences. -/
theorem enumAllL_mem_iff (v : List Nat) :
    v ∈ enumAllL ↔ v ≠ [] ∧ validL v := by
  constructor
  · intro hv
    have hv' : v ∈ listIter 194482 [] := List.mem_of_mem_tail hv
    have hvalid := listIter_valid 194482 [] validL_nil v hv'
    refine ⟨?_, hvalid⟩
    have hpw := listIter_pairwise 194482 [] validL_nil
    rw [listIter_cons_tail, List.pairwise_cons] at hpw
    have hlt := hpw.1 v hv
    intro hnil
    rw [hnil] at hlt
    exact List.Lex.not_nil_right _ _ hlt
  · rintro ⟨hne, hv⟩
    have hlex : List.Lex (· < ·) [] v := by
      cases v with
      | nil => exact absurd rfl hne
      | cons a t => exact List.Lex.nil
    have henc : encodeL v ≤ encodeL [] + 194482 := by
      have := encodeL_lt v hv.2.2 hv.1
      have hz : encodeL [] = 0 := rfl
      omega
    have hmem := listIter_complete 194482 [] v validL_nil hv hlex henc
    rw [listIter_cons_tail] at hmem
    rcases List.mem_cons.mp hmem with rfl | h
    · exact absurd rfl hne
    · exact h

/-- No sequence is visited twice. -/
theorem enumAllL_nodup : enumAllL.Nodup := by
  have hpw := listIter_pairwise 194482 [] validL_nil
  rw [listIter_cons_tail, List.pairwise_cons] at hpw
  exact hpw.2.imp fun hab heq => absurd (heq ▸ hab) (lexN_irrefl _)

/-- The visits come in strictly increasing lexicographic order. -/
theorem enumAllL_pairwise : enumAllL.Pairwise (List.Lex (· < ·)) := by
  have hpw := listIter_pairwise 194482 [] validL_nil
  rw [listIter_cons_tail, List.pairwise_cons] at hpw
  exact hpw.2

open FragmentPath in
/-- C1: starting from the empty `FragmentPath` and stepping via `append`
(descend when possible), `increment` (next sibling) and
`pop_and_increment` (backtrack) until `CannotIncrementEmpty`, the
enumeration `enumAll` visits every disjoint ordered index sequence of
length 1-4 over 0..19 exactly once (membership holds precisely for the
nonempty duplicate-free bounded sequences, and no path repeats), the
visits come in the fixed lexicographic-by-index order `pathLt`, and every
visited path satisfies `is_disjoint() == true`. -/
theorem c1_enumeration_spec :
    (∀ l : List Nat, l.length ≤ 4 →
      (pack l ∈ enumAll ↔ l ≠ [] ∧ l.Nodup ∧ ∀ x ∈ l, x < 20)) ∧
    enumAll.Nodup ∧
    List.Pairwise pathLt enumAll ∧
    ∀ p ∈ enumAll, p.is_disjoint = some true := by
  refine ⟨?_, ?_, ?_, ?_⟩
  · intro l hl4
    rw [enumAll_eq]
    constructor
    · intro hmem
      rcases List.mem_map.mp hmem with ⟨u, hu, hpu⟩
      obtain ⟨hune, huv⟩ := (enumAllL_mem_iff u).mp hu
      have hul : u = l := pack_inj u l huv.1 hl4 hpu
      subst hul
      exact ⟨hune, huv.2.1, huv.2.2⟩
    · rintro ⟨hne, hnd, h20⟩
      exact List.mem_map_of_mem pack ((enumAllL_mem_iff l).mpr ⟨hne, hl4, hnd, h20⟩)
  · rw [enumAll_eq]
    refine enumAllL_nodup.map_on ?_
    intro u hu w hw hpw
    obtain ⟨-, huv⟩ := (enumAllL_mem_iff u).mp hu
    obtain ⟨-, hwv⟩ := (enumAllL_mem_iff w).mp hw
    exact pack_inj u w huv.1 hwv.1 hpw
  · rw [enumAll_eq, List.pairwise_map]
    refine enumAllL_pairwise.imp_of_mem ?_
    intro a b ha hb hab
    show List.Lex (· < ·) (pack a).present (pack b).present
    obtain ⟨-, hav⟩ := (enumAllL_mem_iff a).mp ha
    obtain ⟨-, hbv⟩ := (enumAllL_mem_iff b).mp hb
    rw [present_pack a hav.1, present_pack b hbv.1]
    exact hab
  · intro p hp
    rw [enumAll_eq] at hp
    rcases List.mem_map.mp hp with ⟨u, hu, rfl⟩
    obtain ⟨-, huv⟩ := (enumAllL_mem_iff u).mp hu
    have hdb : (pack u).disjointB = true := by
      rw [disjointB_iff, present_pack u huv.1]
      exact ⟨huv.2.1, huv.2.2⟩
    rw [disjointB] at hdb
    exact of_decide_eq_true hdb

/-!
## Claim theorems about `is_solved`
-/

/-- A finished solver whose six full paths have six distinct word texts
and cover all twenty indices, but reuse indices 0, 1 and 2 across two
paths. -/
def c2CexSolver : Solver :=
  { dictionary := [], fragments := abcFragments,
    path := FragmentPath.empty,
    solution := [⟨some 0, some 1, some 2, some 3⟩,
      ⟨some 4, some 5, some 6, some 7⟩, ⟨some 8, some 9, some 10, some 11⟩,
      ⟨some 12, some 13, some 14, some 15⟩,
      ⟨some 16, some 17, some 18, some 19⟩, ⟨some 0, some 1, some 2, some 4⟩],
    is_finished := true }

/-- C2 counterexample: `is_solved` answers `true` although the fragment
indices underlying the full paths do not partition the 20 positions —
index 0 is used twice in total.  The code only checks that the set of
used indices has 20 elements, not that each is used exactly once. -/
theorem c2_counterexample :
    c2CexSolver.is_solved = true ∧
    ((c2CexSolver.solution.filter (fun p => p.isFullB)).map
        (fun p => p.present)).flatten.count 0 = 2 := by decide

/-- C2 (amended): `is_solved` is `false` whenever the solver is not
finished; on a finished solver with 20 fragments whose solution paths
are all disjoint, it is `true` exactly when at least five distinct full
(4-fragment) word texts occur in the solution and the full paths
together cover all 20 grid positions (each position used by at least one
full path — not necessarily exactly once). -/
theorem c2_is_solved_spec :
    (∀ s : Solver, s.is_finished = false → s.is_solved = false) ∧
    (∀ s : Solver, s.is_finished = true → s.fragments.length = 20 →
      (∀ p ∈ s.solution, p.disjointB = true) →
      (s.is_solved = true ↔
        5 ≤ ((s.solution.filter (fun p => p.isFullB)).map
            (fun p => p.word s.fragments)).dedup.length ∧
        ∀ i, i < 20 →
          ∃ p ∈ s.solution.filter (fun p => p.isFullB), i ∈ p.present)) := by
  constructor
  · intro s h
    rw [Solver.is_solved, if_pos (by simp [h])]
  · intro s hfin h20 hdisj
    rw [Solver.is_solved, if_neg (by simp [hfin])]
    by_cases hu : ((s.solution.filter (fun p => p.isFullB)).map
        (fun p => p.word s.fragments)).dedup.length < 5
    · rw [if_pos hu]
      constructor
      · intro h; exact absurd h (by simp)
      · rintro ⟨h5, -⟩; omega
    · rw [if_neg hu]
      have hused : ∀ x ∈ ((s.solution.filter (fun p => p.isFullB)).map
          (fun p => p.present)).flatten, x < 20 := by
        intro x hx
        rw [List.mem_flatten] at hx
        obtain ⟨l, hl, hxl⟩ := hx
        rw [List.mem_map] at hl
        obtain ⟨p, hp, rfl⟩ := hl
        have hpd := hdisj p (List.mem_filter.mp hp).1
        exact ((FragmentPath.disjointB_iff p).mp hpd).2 x hxl
      set used := ((s.solution.filter (fun p => p.isFullB)).map
        (fun p => p.present)).flatten with hused_def
      have hsub : used.toFinset ⊆ Finset.range 20 := by
        intro x hx
        rw [List.mem_toFinset] at hx
        rw [Finset.mem_range]
        exact hused x hx
      have hcard : used.dedup.length = used.toFinset.card :=
        (List.card_toFinset used).symm
      constructor
      · intro h
        refine ⟨by omega, ?_⟩
        have hlen : used.dedup.length = 20 := by
          rw [h20] at h
          simpa [beq_iff_eq] using h
        have : used.toFinset = Finset.range 20 := by
          apply Finset.eq_of_subset_of_card_le hsub
          rw [Finset.card_range, ← hcard, hlen]
        intro i hi
        have : i ∈ used.toFinset := by
          rw [this, Finset.mem_range]
          exact hi
        rw [List.mem_toFinset, hused_def, List.mem_flatten] at this
        obtain ⟨l, hl, hil⟩ := this
        rw [List.mem_map] at hl
        obtain ⟨p, hp, rfl⟩ := hl
        exact ⟨p, hp, hil⟩
      · rintro ⟨-, hcov⟩
        have hsup : Finset.range 20 ⊆ used.toFinset := by
          intro i hi
          rw [Finset.mem_range] at hi
          obtain ⟨p, hp, hip⟩ := hcov i hi
          rw [List.mem_toFinset, hused_def, List.mem_flatten]
          exact ⟨p.present, List.mem_map.mpr ⟨p, hp, rfl⟩, hip⟩
        have heq : used.toFinset = Finset.range 20 :=
          le_antisymm hsub hsup
        simp only [beq_iff_eq, h20]
        rw [hcard, heq, Finset.card_range]

/-!
## `Dictionary::open` (src/dictionary.rs lines 108-152)

The filesystem is abstracted: each fallible operation `open` performs is
a field of `FileSys`.  `dictModified` collapses the
`metadata().and_then(|m| m.modified())` chain on `<name>.dict` (failing
when the file does not exist), likewise `txtModified` for `<name>.txt`;
`dictContent` is the result of `deserialize_from_file(&dict_path)`,
`txtContent` the result of `read_from_file(&txt_path)` (the line-by-line
parse), and `writeOk` tells whether `serialize_to_file(&dict_path)`
would succeed.  Errors carry no payload (`Unit`): only success or
failure steers `open`.
-/

/-- The filesystem as `Dictionary::open` observes it. -/
structure FileSys where
  dictModified : Except Unit Nat
  txtModified : Except Unit Nat
  dictContent : Except Unit (List String)
  txtContent : Except Unit (List String)
  writeOk : Bool
deriving DecidableEq

/-- The cache-freshness test of `Dictionary::open`: the Rust
`dict_path.metadata().and_then(modified).and_then(|dict_time| txt_path.
metadata().and_then(modified).map(|txt_time| dict_time > txt_time)).
unwrap_or(false)`. -/
def cacheFresh (fs : FileSys) : Bool :=
  match fs.dictModified.bind (fun dictTime =>
      fs.txtModified.map (fun txtTime => decide (txtTime < dictTime))) with
  | .ok b => b
  | .error _ => false

/-- `Dictionary::open`: the returned dictionary (or propagated error) and
whether a fresh binary cache was successfully written. -/
def openDict (fs : FileSys) : Except Unit (List String) × Bool :=
  if cacheFresh fs then
    (fs.dictContent, false)
  else
    match fs.txtContent with
    | .error e => (.error e, false)
    | .ok d => (.ok d, fs.writeOk)

/-- C9: `Dictionary::open` reads the binary cache exactly when both
modification times are available and the cache is strictly newer than
the text file; in every other case it parses the text file and returns
the text-derived dictionary (or the text read error), attempting a cache
write whose failure is not propagated: the returned value never depends
on whether the cache write succeeds. -/
theorem c9_open_cache_spec :
    ∀ fs : FileSys,
      (cacheFresh fs = true ↔
        ∃ dt tt, fs.dictModified = .ok dt ∧ fs.txtModified = .ok tt ∧
          tt < dt) ∧
      (cacheFresh fs = true → (openDict fs).1 = fs.dictContent) ∧
      (cacheFresh fs = false → (openDict fs).1 = fs.txtContent ∧
        ((openDict fs).2 = true ↔
          fs.writeOk = true ∧ ∃ d, fs.txtContent = .ok d)) ∧
      (openDict fs).1 = (openDict { fs with writeOk := !fs.writeOk }).1 := by
  intro fs
  have hfresh : cacheFresh { fs with writeOk := !fs.writeOk } = cacheFresh fs := rfl
  refine ⟨?_, ?_, ?_, ?_⟩
  · rw [cacheFresh]
    cases hd : fs.dictModified with
    | error u =>
      simp only [Except.bind]
      constructor
      · intro h; exact absurd h (by simp)
      · rintro ⟨dt, tt, hdt, -, -⟩
        exact absurd hdt (by simp)
    | ok dt =>
      cases ht : fs.txtModified with
      | error u =>
        simp only [Except.bind, Except.map]
        constructor
        · intro h; exact absurd h (by simp)
        · rintro ⟨dt', tt, -, htt, -⟩
          exact absurd htt (by simp)
      | ok tt =>
        simp only [Except.bind, Except.map]
        constructor
        · intro h
          exact ⟨dt, tt, rfl, rfl, of_decide_eq_true h⟩
        · rintro ⟨dt', tt', hdt, htt, hlt⟩
          have h1 : dt = dt' := (Except.ok.injEq _ _).mp hdt
          have h2 : tt = tt' := (Except.ok.injEq _ _).mp htt
          subst h1
          subst h2
          exact decide_eq_true hlt
  · intro h
    rw [openDict, if_pos h]
  · intro h
    rw [openDict, if_neg (by rw [h]; exact Bool.false_ne_true)]
    cases htc : fs.txtContent with
    | error u =>
      refine ⟨rfl, ?_⟩
      constructor
      · intro hfalse; exact absurd hfalse (by simp)
      · rintro ⟨-, d, hd⟩
        exact absurd hd (by simp)
    | ok d =>
      refine ⟨rfl, ?_⟩
      constructor
      · intro hw; exact ⟨hw, d, rfl⟩
      · rintro ⟨hw, -⟩; exact hw
  · rw [openDict, openDict, hfresh]
    by_cases h : cacheFresh fs = true
    · rw [if_pos h, if_pos h]
    · rw [if_neg h, if_neg h]
      cases htc : fs.txtContent with
      | error u => rfl
      | ok d => rfl

end Quartiles
